import Mathlib

/-!
# Verification of the Browser-db LSM storage core

Shallow embedding of `src/bindings/src/core/{format.rs, heatmap.rs, lsm_tree.rs}`:
the binary codec (varints, framed log entries, file header with CRC32), the
Bloom filter, and the LSM engine (memtable, SSTable create/open/get, put/get/flush).

Bytes are modelled as `Nat` values (< 256 where it matters), byte strings as
`List Nat`, machine integers as `Nat` with explicit `% 2^w` at wrapping
operations.  Fallible / panicking operations return `Except`/`Option`
(`none` = panic).
-/

namespace BrowserDB

/-! ## Varint codec (`format.rs`, `write_varint` / `read_varint`) -/

/-- Loop body of `write_varint`, made structurally recursive on a fuel
argument so that it evaluates by kernel reduction; `f ≥ v` is always enough
fuel since the value shrinks by a factor 128 each round. -/
def write_varint_aux : Nat → Nat → List Nat
  | 0, v => [v]
  | f + 1, v =>
    if v ≥ 0x80 then ((v &&& 0x7F) ||| 0x80) :: write_varint_aux f (v >>> 7)
    else [v]

/-- `write_varint` from `format.rs`: base-128 little-endian continuation
encoding.  Emits `(value & 0x7F) | 0x80` while `value >= 0x80`, then the
final byte (see `write_varint_eq` for the loop-shaped unfolding). -/
def write_varint (v : Nat) : List Nat := write_varint_aux v v

theorem write_varint_aux_congr : ∀ f g v : Nat, v ≤ f → v ≤ g →
    write_varint_aux f v = write_varint_aux g v := by
  intro f
  induction f using Nat.strong_induction_on with
  | _ f ih =>
    intro g v hf hg
    match f, g with
    | 0, 0 => rfl
    | 0, g + 1 =>
        have : v = 0 := by omega
        subst this
        rw [write_varint_aux, write_varint_aux, if_neg (by omega)]
    | f + 1, 0 =>
        have : v = 0 := by omega
        subst this
        rw [write_varint_aux, write_varint_aux, if_neg (by omega)]
    | f + 1, g + 1 =>
        rw [write_varint_aux, write_varint_aux]
        by_cases hv : v ≥ 0x80
        · rw [if_pos hv, if_pos hv]
          have hlt : v >>> 7 < v := by
            rw [Nat.shiftRight_eq_div_pow]
            exact Nat.div_lt_self (by omega) (by norm_num)
          have hrw := ih f (by omega) g (v >>> 7) (by omega) (by omega)
          rw [hrw]
        · rw [if_neg hv, if_neg hv]

/-- The source's loop equation for `write_varint`. -/
theorem write_varint_eq (v : Nat) :
    write_varint v = if v ≥ 0x80 then ((v &&& 0x7F) ||| 0x80) :: write_varint (v >>> 7)
      else [v] := by
  by_cases hv : v ≥ 0x80
  · rw [if_pos hv]
    have h1 : v = (v - 1) + 1 := by omega
    have hlt : v >>> 7 < v := by
      rw [Nat.shiftRight_eq_div_pow]
      exact Nat.div_lt_self (by omega) (by norm_num)
    show write_varint_aux v v = _
    conv_lhs => rw [h1]
    rw [write_varint_aux, if_pos (by omega), ← h1,
      write_varint_aux_congr (v - 1) (v >>> 7) (v >>> 7) (by omega) (by omega)]
    rfl
  · rw [if_neg hv]
    show write_varint_aux v v = _
    match v with
    | 0 => rfl
    | v + 1 => rw [write_varint_aux, if_neg hv]

/-- Loop body of `read_varint` from `format.rs`, with the accumulated
`result` and `shift` made explicit.  After consuming a continuation byte
the code does `shift += 7; if shift > 63 { error }`. -/
def read_varint_aux : List Nat → Nat → Nat → Except String (Nat × List Nat)
  | [], _, _ => .error "eof"
  | b :: rest, result, shift =>
    let result' := result ||| ((b &&& 0x7F) <<< shift)
    if b &&& 0x80 == 0 then .ok (result', rest)
    else if shift + 7 > 63 then .error "VarInt too large"
    else read_varint_aux rest result' (shift + 7)

/-- `read_varint` from `format.rs`; returns the decoded value and the
unconsumed remainder of the input. -/
def read_varint (bs : List Nat) : Except String (Nat × List Nat) :=
  read_varint_aux bs 0 0

theorem and_127_eq_mod (v : Nat) : v &&& 127 = v % 128 := by
  have : (127 : Nat) = 2 ^ 7 - 1 := by norm_num
  rw [this, Nat.and_pow_two_sub_one_eq_mod]

theorem and_128_eq_zero_of_lt {v : Nat} (h : v < 128) : v &&& 128 = 0 := by
  have h7 : (128 : Nat) = 2 ^ 7 := by norm_num
  rw [h7, Nat.and_two_pow]
  have : v.testBit 7 = false := Nat.testBit_lt_two_pow (by norm_num at h7 ⊢; omega)
  simp [this]

theorem small_or_128_and_128 {x : Nat} (h : x < 128) : ((x ||| 128) &&& 128) = 128 := by
  have h7 : (128 : Nat) = 2 ^ 7 := by norm_num
  rw [h7, Nat.and_two_pow]
  have hx : x.testBit 7 = false := Nat.testBit_lt_two_pow (by norm_num at h7 ⊢; omega)
  have : (x ||| 128).testBit 7 = true := by
    rw [Nat.testBit_or, hx, h7, Nat.testBit_two_pow_self]
    simp
  simp [this]

theorem small_or_128_and_127 {x : Nat} (h : x < 128) : ((x ||| 128) &&& 127) = x := by
  apply Nat.eq_of_testBit_eq
  intro i
  have h127t : Nat.testBit 127 i = decide (i < 7) := by
    have h127 : (127 : Nat) = 2 ^ 7 - 1 := by norm_num
    rw [h127, Nat.testBit_two_pow_sub_one]
  rw [Nat.testBit_and, Nat.testBit_or, h127t]
  rcases Nat.lt_or_ge i 7 with hi | hi
  · have h128 : Nat.testBit 128 i = false := by
      have : (128 : Nat) = 2 ^ 7 := by norm_num
      rw [this, Nat.testBit_two_pow]
      simp; omega
    simp [h128, hi]
  · have hpow : (128 : Nat) ≤ 2 ^ i := by
      calc (128 : Nat) = 2 ^ 7 := by norm_num
      _ ≤ 2 ^ i := Nat.pow_le_pow_right (by norm_num) hi
    have hx : x.testBit i = false := Nat.testBit_lt_two_pow (lt_of_lt_of_le h hpow)
    simp [hx, Nat.not_lt.mpr hi]

/-- Reassembling the low 7 bits and the shifted-out rest recovers the value. -/
theorem varint_assemble (v shift : Nat) :
    ((v % 128) <<< shift) ||| ((v >>> 7) <<< (shift + 7)) = v <<< shift := by
  apply Nat.eq_of_testBit_eq
  intro i
  rw [Nat.testBit_or, Nat.testBit_shiftLeft, Nat.testBit_shiftLeft, Nat.testBit_shiftLeft,
    Nat.testBit_shiftRight]
  have h128 : (128 : Nat) = 2 ^ 7 := by norm_num
  rcases Nat.lt_or_ge i shift with hi | hi
  · simp [Nat.not_le.mpr hi]; omega
  · rcases Nat.lt_or_ge i (shift + 7) with hi7 | hi7
    · have hlow : (v % 128).testBit (i - shift) = v.testBit (i - shift) := by
        rw [h128, Nat.testBit_mod_two_pow]
        simp; omega
      simp [hi, hlow, Nat.not_le.mpr hi7]
    · have hlow : (v % 128).testBit (i - shift) = false := by
        rw [h128, Nat.testBit_mod_two_pow]
        simp; omega
      have harith : 7 + (i - (shift + 7)) = i - shift := by omega
      simp [hi, hlow, hi7, harith, Nat.le_trans (Nat.le_add_right shift 7) hi7]

theorem read_varint_aux_write (v : Nat) :
    ∀ (shift acc : Nat) (rest : List Nat), shift ≤ 63 → v < 2 ^ (64 - shift) →
    read_varint_aux (write_varint v ++ rest) acc shift = .ok (acc ||| (v <<< shift), rest) := by
  induction v using Nat.strong_induction_on with
  | _ v ih =>
    intro shift acc rest hs hv
    rw [write_varint_eq]
    by_cases h : v ≥ 0x80
    · rw [if_pos h]
      simp only [List.cons_append, read_varint_aux]
      have hb : ((v &&& 0x7F) ||| 0x80) &&& 0x80 = 128 :=
        small_or_128_and_128 (by rw [and_127_eq_mod]; omega)
      have hb7 : ((v &&& 0x7F) ||| 0x80) &&& 0x7F = v % 128 := by
        have := small_or_128_and_127 (x := v &&& 0x7F) (by rw [and_127_eq_mod]; omega)
        rw [this, and_127_eq_mod]
      have hshift : shift < 57 := by
        by_contra hc
        push_neg at hc
        have : 64 - shift ≤ 7 := by omega
        have : (2 : Nat) ^ (64 - shift) ≤ 2 ^ 7 := Nat.pow_le_pow_right (by norm_num) this
        omega
      have hguard : ¬ (shift + 7 > 63) := by omega
      simp only [hb]
      norm_num
      have hrec : v >>> 7 < 2 ^ (64 - (shift + 7)) := by
        rw [Nat.shiftRight_eq_div_pow]
        have : v < 2 ^ (64 - (shift + 7)) * 2 ^ 7 := by
          rw [← Nat.pow_add]
          have : 64 - (shift + 7) + 7 = 64 - shift := by omega
          rw [this]; exact hv
        exact Nat.div_lt_of_lt_mul (by simpa [Nat.mul_comm] using this)
      have hlt : v >>> 7 < v := by
        rw [Nat.shiftRight_eq_div_pow]
        exact Nat.div_lt_self (by omega) (by norm_num)
      rw [if_neg (show ¬ (63 < shift + 7) by omega)]
      rw [ih (v >>> 7) hlt (shift + 7) _ rest (by omega) hrec]
      congr 1
      rw [hb7, Nat.or_assoc, varint_assemble]
    · rw [if_neg h]
      simp only [List.cons_append, List.nil_append, read_varint_aux]
      push_neg at h
      have hb : v &&& 0x80 = 0 := and_128_eq_zero_of_lt h
      have hb7 : v &&& 0x7F = v := by rw [and_127_eq_mod]; exact Nat.mod_eq_of_lt h
      simp [hb, hb7]

/-- Claim C7: for every 64-bit value, decoding the varint encoding
succeeds and returns the value (with no bytes left over). -/
theorem varint_roundtrip (x : Nat) (hx : x < 2 ^ 64) :
    read_varint (write_varint x) = .ok (x, []) := by
  have := read_varint_aux_write x 0 0 [] (by omega) (by simpa using hx)
  simpa [read_varint] using this

/-- Witness for C7 at `x = 300`. -/
theorem varint_roundtrip_witness :
    300 < 2 ^ 64 ∧ read_varint (write_varint 300) = .ok (300, []) :=
  ⟨by norm_num, varint_roundtrip 300 (by norm_num)⟩

/-! ## CRC32 (the `crc32fast::Hasher`: reflected CRC-32/ISO-HDLC,
polynomial 0xEDB88320, initial value 0xFFFFFFFF, final xor 0xFFFFFFFF) -/

/-- One bit-step of the reflected CRC-32 computation. -/
def crcStep1 (c : Nat) : Nat :=
  if c % 2 = 1 then (c >>> 1) ^^^ 0xEDB88320 else c >>> 1

/-- `n` bit-steps. -/
def crcStepN : Nat → Nat → Nat
  | 0, c => c
  | n + 1, c => crcStepN n (crcStep1 c)

/-- Absorb one input byte: xor it into the state, then 8 bit-steps. -/
def crcUpdateByte (c b : Nat) : Nat := crcStepN 8 (c ^^^ b)

def crcFold (c : Nat) (bs : List Nat) : Nat := bs.foldl crcUpdateByte c

/-- CRC32 of a byte string, as `Hasher::new` / `update` / `finalize` computes it. -/
def crc32 (bs : List Nat) : Nat := crcFold 0xFFFFFFFF bs ^^^ 0xFFFFFFFF

theorem xor_left_comm (a b c : Nat) : a ^^^ (b ^^^ c) = b ^^^ (a ^^^ c) := by
  rw [← Nat.xor_assoc, Nat.xor_comm a b, Nat.xor_assoc]

theorem xor_cancel_left (a b : Nat) : a ^^^ (a ^^^ b) = b := by
  rw [← Nat.xor_assoc, Nat.xor_self, Nat.zero_xor]

theorem shiftRight_one_xor (x y : Nat) : (x ^^^ y) >>> 1 = (x >>> 1) ^^^ (y >>> 1) := by
  apply Nat.eq_of_testBit_eq
  intro i
  simp [Nat.testBit_shiftRight, Nat.testBit_xor]

theorem mod_two_xor (x y : Nat) : (x ^^^ y) % 2 = (x % 2) ^^^ (y % 2) := by
  rw [← Nat.and_one_is_mod, ← Nat.and_one_is_mod, ← Nat.and_one_is_mod,
    Nat.and_xor_distrib_right]

theorem xor3l (a b p : Nat) : a ^^^ (b ^^^ p) = (a ^^^ b) ^^^ p :=
  (Nat.xor_assoc a b p).symm

theorem xor3r (a b p : Nat) : (a ^^^ p) ^^^ b = (a ^^^ b) ^^^ p := by
  rw [Nat.xor_assoc, Nat.xor_comm p b, ← Nat.xor_assoc]

theorem xor4 (a b p : Nat) : (a ^^^ p) ^^^ (b ^^^ p) = a ^^^ b := by
  rw [xor3r, xor3l, Nat.xor_assoc, Nat.xor_self, Nat.xor_zero]

/-- The CRC bit-step is linear over xor. -/
theorem crcStep1_xor (x y : Nat) : crcStep1 (x ^^^ y) = crcStep1 x ^^^ crcStep1 y := by
  unfold crcStep1
  rcases Nat.mod_two_eq_zero_or_one x with hx | hx <;>
    rcases Nat.mod_two_eq_zero_or_one y with hy | hy
  · have hxy : (x ^^^ y) % 2 = 0 := by rw [mod_two_xor, hx, hy]; rfl
    rw [if_neg (by omega), if_neg (by omega), if_neg (by omega), shiftRight_one_xor]
  · have hxy : (x ^^^ y) % 2 = 1 := by rw [mod_two_xor, hx, hy]; rfl
    rw [if_pos hxy, if_neg (by omega), if_pos hy, shiftRight_one_xor, xor3l]
  · have hxy : (x ^^^ y) % 2 = 1 := by rw [mod_two_xor, hx, hy]; rfl
    rw [if_pos hxy, if_pos hx, if_neg (by omega), shiftRight_one_xor, xor3r]
  · have hxy : (x ^^^ y) % 2 = 0 := by rw [mod_two_xor, hx, hy]; rfl
    rw [if_neg (by omega), if_pos hx, if_pos hy, shiftRight_one_xor, xor4]

theorem crcStepN_xor (n x y : Nat) : crcStepN n (x ^^^ y) = crcStepN n x ^^^ crcStepN n y := by
  induction n generalizing x y with
  | zero => rfl
  | succ n ih => rw [crcStepN, crcStepN, crcStepN, crcStep1_xor, ih]

theorem crcStepN_add (m n c : Nat) : crcStepN (m + n) c = crcStepN m (crcStepN n c) := by
  induction n generalizing c with
  | zero => rfl
  | succ n ih =>
      have : m + (n + 1) = (m + n) + 1 := by omega
      rw [this, crcStepN, ih, crcStepN]

theorem crcUpdateByte_xor (c d b : Nat) :
    crcUpdateByte (c ^^^ d) b = crcUpdateByte c b ^^^ crcStepN 8 d := by
  unfold crcUpdateByte
  rw [Nat.xor_comm c d, Nat.xor_assoc, crcStepN_xor, Nat.xor_comm]

theorem crcFold_xor (bs : List Nat) : ∀ c d : Nat,
    crcFold (c ^^^ d) bs = crcFold c bs ^^^ crcStepN (8 * bs.length) d := by
  induction bs with
  | nil => intro c d; simp [crcFold, crcStepN]
  | cons b bs ih =>
      intro c d
      simp only [crcFold, List.foldl_cons] at ih ⊢
      rw [crcUpdateByte_xor, ih (crcUpdateByte c b) (crcStepN 8 d), List.length_cons,
        ← crcStepN_add]
      have h8 : 8 * bs.length + 8 = 8 * (bs.length + 1) := by omega
      rw [h8]

/-- Flipping the bits `e` of one byte of the input changes `crc32` by a delta
that depends only on `e` and on how many bytes follow. -/
theorem crc32_flip (A B : List Nat) (b e : Nat) :
    crc32 (A ++ (b ^^^ e) :: B) = crc32 (A ++ b :: B) ^^^ crcStepN (8 * (B.length + 1)) e := by
  unfold crc32 crcFold
  rw [List.foldl_append, List.foldl_append, List.foldl_cons, List.foldl_cons]
  have h1 : crcUpdateByte (List.foldl crcUpdateByte 0xFFFFFFFF A) (b ^^^ e)
      = crcUpdateByte (List.foldl crcUpdateByte 0xFFFFFFFF A) b ^^^ crcStepN 8 e := by
    unfold crcUpdateByte
    rw [← Nat.xor_assoc, crcStepN_xor]
  rw [h1]
  have h2 := crcFold_xor B (List.foldl crcUpdateByte
    (crcUpdateByte (List.foldl crcUpdateByte 0xFFFFFFFF A) b) []) (crcStepN 8 e)
  simp only [crcFold, List.foldl_nil] at h2
  rw [h2, ← crcStepN_add]
  have : 8 * B.length + 8 = 8 * (B.length + 1) := by omega
  rw [this]
  rw [Nat.xor_comm _ 0xFFFFFFFF, Nat.xor_comm _ 0xFFFFFFFF, ← Nat.xor_assoc,
    Nat.xor_comm 0xFFFFFFFF _, Nat.xor_assoc, Nat.xor_comm 0xFFFFFFFF _]

set_option maxRecDepth 100000 in
/-- For every byte position of a 43-byte message and every bit of that byte,
the CRC delta of the single-bit flip is nonzero. -/
theorem crc_delta_ne_zero : ∀ j < 43, ∀ k < 8, crcStepN (8 * (43 - j)) (1 <<< k) ≠ 0 := by
  decide

theorem crc32_lt (bs : List Nat) (h : ∀ b ∈ bs, b < 2 ^ 32) : crc32 bs < 2 ^ 32 := by
  have step1 : ∀ c, c < 2 ^ 32 → crcStep1 c < 2 ^ 32 := by
    intro c hc
    unfold crcStep1
    have hs : c >>> 1 < 2 ^ 32 := by
      rw [Nat.shiftRight_eq_div_pow]
      omega
    split
    · exact Nat.xor_lt_two_pow hs (by norm_num)
    · exact hs
  have stepN : ∀ n c, c < 2 ^ 32 → crcStepN n c < 2 ^ 32 := by
    intro n
    induction n with
    | zero => intro c hc; exact hc
    | succ n ih => intro c hc; exact ih _ (step1 c hc)
  have fold : ∀ (l : List Nat), (∀ b ∈ l, b < 2 ^ 32) → ∀ c, c < 2 ^ 32 →
      crcFold c l < 2 ^ 32 := by
    intro l
    induction l with
    | nil => intro _ c hc; exact hc
    | cons b l ih =>
        intro hl c hc
        simp only [crcFold, List.foldl_cons] at ih ⊢
        exact ih (fun x hx => hl x (List.mem_cons_of_mem b hx)) _
          (stepN 8 _ (Nat.xor_lt_two_pow hc (hl b (List.mem_cons_self b l))))
  unfold crc32
  exact Nat.xor_lt_two_pow (fold bs h _ (by norm_num)) (by norm_num)

/-! ## Little-endian integer codec (`byteorder::LittleEndian`) -/

/-- `w` little-endian bytes of `n` (as `write_u64::<LittleEndian>` etc. emit). -/
def leBytes : Nat → Nat → List Nat
  | 0, _ => []
  | w + 1, n => (n % 256) :: leBytes w (n / 256)

/-- Decode little-endian bytes (as `read_u64::<LittleEndian>` etc.). -/
def leVal (bs : List Nat) : Nat := bs.foldr (fun b acc => b + 256 * acc) 0

theorem leBytes_length (w n : Nat) : (leBytes w n).length = w := by
  induction w generalizing n with
  | zero => rfl
  | succ w ih => simp [leBytes, ih]

theorem leBytes_lt (w n : Nat) : ∀ b ∈ leBytes w n, b < 256 := by
  induction w generalizing n with
  | zero => simp [leBytes]
  | succ w ih =>
      intro b hb
      simp only [leBytes, List.mem_cons] at hb
      rcases hb with hb | hb
      · omega
      · exact ih _ b hb

theorem leVal_cons (b : Nat) (bs : List Nat) : leVal (b :: bs) = b + 256 * leVal bs := rfl

theorem leVal_leBytes (w n : Nat) : leVal (leBytes w n) = n % 256 ^ w := by
  induction w generalizing n with
  | zero => simp [leBytes, leVal]; omega
  | succ w ih =>
      simp only [leBytes, leVal_cons]
      rw [ih, Nat.pow_succ, Nat.mul_comm (256 ^ w) 256, Nat.mod_mul]

theorem leBytes_leVal (bs : List Nat) (hlt : ∀ b ∈ bs, b < 256) :
    leBytes bs.length (leVal bs) = bs := by
  induction bs with
  | nil => rfl
  | cons b bs ih =>
      have hb : b < 256 := hlt b (List.mem_cons_self b bs)
      simp only [List.length_cons, leBytes, leVal_cons]
      rw [show (b + 256 * leVal bs) % 256 = b by omega,
        show (b + 256 * leVal bs) / 256 = leVal bs by omega,
        ih (fun x hx => hlt x (List.mem_cons_of_mem b hx))]

theorem leVal_lt (bs : List Nat) (hlt : ∀ b ∈ bs, b < 256) :
    leVal bs < 256 ^ bs.length := by
  induction bs with
  | nil => simp [leVal]
  | cons b bs ih =>
      have hb : b < 256 := hlt b (List.mem_cons_self b bs)
      have hrec := ih (fun x hx => hlt x (List.mem_cons_of_mem b hx))
      simp only [leVal, List.foldr_cons, List.length_cons] at hrec ⊢
      rw [Nat.pow_succ]
      omega

/-! ## On-disk enums (`format.rs`) -/

inductive TableType
  | History | Cookies | Cache | LocalStore | Settings
  deriving DecidableEq, Repr

/-- `TableType as u8` (discriminants 1..5). -/
def TableType.toU8 : TableType → Nat
  | .History => 1 | .Cookies => 2 | .Cache => 3 | .LocalStore => 4 | .Settings => 5

/-- `impl From<u8> for TableType`: unknown values collapse to `History`. -/
def tableTypeFromU8 (v : Nat) : TableType :=
  match v with
  | 1 => .History | 2 => .Cookies | 3 => .Cache | 4 => .LocalStore | 5 => .Settings
  | _ => .History

inductive CompressionType
  | None | Zlib | Lz4 | Zstd
  deriving DecidableEq, Repr

def CompressionType.toU8 : CompressionType → Nat
  | .None => 0 | .Zlib => 1 | .Lz4 => 2 | .Zstd => 3

/-- The `match` in `BDBFileHeader::read`: unknown values collapse to `None`. -/
def compressionFromU8 (v : Nat) : CompressionType :=
  match v with
  | 0 => .None | 1 => .Zlib | 2 => .Lz4 | 3 => .Zstd
  | _ => .None

inductive EncryptionType
  | None | AES256 | ChaCha20
  deriving DecidableEq, Repr

def EncryptionType.toU8 : EncryptionType → Nat
  | .None => 0 | .AES256 => 1 | .ChaCha20 => 2

/-- The `match` in `BDBFileHeader::read`: unknown values collapse to `None`. -/
def encryptionFromU8 (v : Nat) : EncryptionType :=
  match v with
  | 0 => .None | 1 => .AES256 | 2 => .ChaCha20
  | _ => .None

inductive EntryType
  | Insert | Update | Delete | BatchStart | BatchEnd
  deriving DecidableEq, Repr

def EntryType.toU8 : EntryType → Nat
  | .Insert => 1 | .Update => 2 | .Delete => 3 | .BatchStart => 4 | .BatchEnd => 5

/-- `impl From<u8> for EntryType`: unknown values collapse to `Insert`. -/
def entryTypeFromU8 (v : Nat) : EntryType :=
  match v with
  | 1 => .Insert | 2 => .Update | 3 => .Delete | 4 => .BatchStart | 5 => .BatchEnd
  | _ => .Insert

theorem tableType_roundtrip (t : TableType) : tableTypeFromU8 t.toU8 = t := by
  cases t <;> rfl

theorem compression_roundtrip (c : CompressionType) : compressionFromU8 c.toU8 = c := by
  cases c <;> rfl

theorem encryption_roundtrip (e : EncryptionType) : encryptionFromU8 e.toU8 = e := by
  cases e <;> rfl

theorem entryType_roundtrip (e : EntryType) : entryTypeFromU8 e.toU8 = e := by
  cases e <;> rfl

/-! ## List helpers -/

def ByteOk (bs : List Nat) : Prop := ∀ b ∈ bs, b < 256

instance : DecidablePred ByteOk := fun bs => by
  unfold ByteOk; infer_instance

theorem getD_append_left {l₁ l₂ : List Nat} {n : Nat} (h : n < l₁.length) :
    (l₁ ++ l₂).getD n 0 = l₁.getD n 0 := by
  rw [List.getD_eq_getElem _ 0 (by simp; omega), List.getD_eq_getElem _ 0 h,
    List.getElem_append_left]

theorem getD_append_big {l₁ l₂ : List Nat} {n : Nat} (hge : l₁.length ≤ n)
    (hlt : n < l₁.length + l₂.length) :
    (l₁ ++ l₂).getD n 0 = l₂.getD (n - l₁.length) 0 := by
  rw [List.getD_eq_getElem _ 0 (by simp; omega), List.getD_eq_getElem _ 0 (by omega),
    List.getElem_append_right hge]

theorem eq_take_cons_drop (l : List Nat) (n : Nat) (h : n < l.length) :
    l = l.take n ++ l.getD n 0 :: l.drop (n + 1) := by
  conv_lhs => rw [← List.take_append_drop (n + 1) l]
  rw [List.take_succ, List.getElem?_eq_getElem h, List.getD_eq_getElem l 0 h]
  simp

theorem take_one_drop (bs : List Nat) (a : Nat) (h : a < bs.length) :
    (bs.drop a).take 1 = [bs.getD a 0] := by
  conv_lhs => rw [eq_take_cons_drop bs a h]
  rw [List.drop_left' (by simp; omega)]
  rfl

theorem byteOk_append {l₁ l₂ : List Nat} (h₁ : ByteOk l₁) (h₂ : ByteOk l₂) :
    ByteOk (l₁ ++ l₂) := by
  intro b hb
  rcases List.mem_append.mp hb with hb | hb
  · exact h₁ b hb
  · exact h₂ b hb

/-! ## File header (`format.rs`, `BDBFileHeader`) -/

/-- `b"BROWSERDB"`. -/
def MAGIC_BYTES : List Nat := [66, 82, 79, 87, 83, 69, 82, 68, 66]

def BDB_VERSION : Nat := 1

structure BDBFileHeader where
  magic : List Nat
  version : Nat
  created_at : Nat
  modified_at : Nat
  flags : Nat
  reserved : Nat
  table_type : TableType
  compression : CompressionType
  encryption : EncryptionType
  reserved_bytes : List Nat
  header_crc : Nat
  deriving DecidableEq, Repr

/-- The header fields covered by the CRC, serialized in the order
`BDBFileHeader::calculate_crc` hashes them (which is also the order
`BDBFileHeader::write` emits them). -/
def headerCovered (h : BDBFileHeader) : List Nat :=
  h.magic ++ ([h.version] ++ (leBytes 8 h.created_at ++ (leBytes 8 h.modified_at ++
    (leBytes 4 h.flags ++ (leBytes 4 h.reserved ++ ([h.table_type.toU8] ++
    ([h.compression.toU8] ++ ([h.encryption.toU8] ++ h.reserved_bytes))))))))

/-- `BDBFileHeader::calculate_crc`. -/
def BDBFileHeader.calculate_crc (h : BDBFileHeader) : Nat := crc32 (headerCovered h)

/-- `BDBFileHeader::write`: sets `header_crc = calculate_crc()`, then emits
every field in order, the 4 CRC bytes (little-endian) last. -/
def BDBFileHeader.writeBytes (h : BDBFileHeader) : List Nat :=
  headerCovered h ++ leBytes 4 h.calculate_crc

/-- The field extraction `BDBFileHeader::read` performs, reading
sequentially: 9 magic bytes, 1 version byte, two 8-byte little-endian
u64s, two 4-byte u32s, three tag bytes (each decoded through its
`From<u8>`/`match`, unknown values collapsing to a default), 6 reserved
bytes, and the stored 4-byte CRC. -/
def parseHeaderFields (bs : List Nat) : BDBFileHeader where
  magic := bs.take 9
  version := bs.getD 9 0
  created_at := leVal ((bs.drop 10).take 8)
  modified_at := leVal ((bs.drop 18).take 8)
  flags := leVal ((bs.drop 26).take 4)
  reserved := leVal ((bs.drop 30).take 4)
  table_type := tableTypeFromU8 (bs.getD 34 0)
  compression := compressionFromU8 (bs.getD 35 0)
  encryption := encryptionFromU8 (bs.getD 36 0)
  reserved_bytes := (bs.drop 37).take 6
  header_crc := leVal ((bs.drop 43).take 4)

/-- `BDBFileHeader::read`: fails on short input, on a magic mismatch
(`Invalid Magic Bytes`) and on a CRC mismatch (`Header CRC Mismatch`).
The version byte is read but never compared against `BDB_VERSION`. -/
def BDBFileHeader.readBytes (bs : List Nat) : Except String BDBFileHeader :=
  if bs.length < 47 then .error "UnexpectedEof"
  else if bs.take 9 ≠ MAGIC_BYTES then .error "Invalid Magic Bytes"
  else if (parseHeaderFields bs).calculate_crc ≠ (parseHeaderFields bs).header_crc then
    .error "Header CRC Mismatch"
  else .ok (parseHeaderFields bs)

/-- Well-formed header value: the fixed-size fields hold what the Rust
types (`[u8; 9]`, `u8`, `u64`, `u32`, `[u8; 6]`) can hold. -/
def BDBFileHeader.WF (h : BDBFileHeader) : Prop :=
  h.magic.length = 9 ∧ ByteOk h.magic ∧ h.version < 256 ∧
  h.created_at < 256 ^ 8 ∧ h.modified_at < 256 ^ 8 ∧
  h.flags < 256 ^ 4 ∧ h.reserved < 256 ^ 4 ∧
  h.reserved_bytes.length = 6 ∧ ByteOk h.reserved_bytes

instance (h : BDBFileHeader) : Decidable h.WF := by
  unfold BDBFileHeader.WF; infer_instance

/-- Flip bit `k` of byte `j` of a byte string. -/
def flipBit (bs : List Nat) (j k : Nat) : List Nat :=
  bs.take j ++ ((bs.getD j 0) ^^^ (1 <<< k)) :: bs.drop (j + 1)

theorem headerCovered_length {h : BDBFileHeader} (hwf : h.WF) :
    (headerCovered h).length = 43 := by
  obtain ⟨h9, -, -, -, -, -, -, h6, -⟩ := hwf
  simp [headerCovered, leBytes_length, h9, h6]

theorem headerCovered_byteOk {h : BDBFileHeader} (hwf : h.WF) :
    ByteOk (headerCovered h) := by
  obtain ⟨-, hm, hv, -, -, -, -, -, hr⟩ := hwf
  unfold headerCovered
  apply byteOk_append hm
  apply byteOk_append (fun b hb => by simp only [List.mem_singleton] at hb; omega)
  apply byteOk_append (leBytes_lt _ _)
  apply byteOk_append (leBytes_lt _ _)
  apply byteOk_append (leBytes_lt _ _)
  apply byteOk_append (leBytes_lt _ _)
  apply byteOk_append (fun b hb => by
    simp only [List.mem_singleton] at hb
    subst hb
    cases h.table_type <;> norm_num [TableType.toU8])
  apply byteOk_append (fun b hb => by
    simp only [List.mem_singleton] at hb
    subst hb
    cases h.compression <;> norm_num [CompressionType.toU8])
  exact byteOk_append (fun b hb => by
    simp only [List.mem_singleton] at hb
    subst hb
    cases h.encryption <;> norm_num [EncryptionType.toU8]) hr

theorem writeBytes_length {h : BDBFileHeader} (hwf : h.WF) :
    (h.writeBytes).length = 47 := by
  simp [BDBFileHeader.writeBytes, headerCovered_length hwf, leBytes_length]

theorem writeBytes_byteOk {h : BDBFileHeader} (hwf : h.WF) : ByteOk h.writeBytes :=
  byteOk_append (headerCovered_byteOk hwf) (leBytes_lt 4 _)

theorem drop_chunk {G R : List Nat} {n m : Nat} (h : G.length + m = n) :
    (G ++ R).drop n = R.drop m := by
  rw [← h]
  exact List.drop_append m

theorem getD_eq_of_drop {bs : List Nat} {a c : Nat} {rest : List Nat}
    (h : bs.drop a = c :: rest) : bs.getD a 0 = c := by
  have hlen : a < bs.length := by
    by_contra hc
    push_neg at hc
    rw [List.drop_eq_nil_of_le hc] at h
    exact List.noConfusion h
  have h0 : (bs.drop a).getD 0 0 = c := by
    rw [h]
    rfl
  rw [← h0, List.getD_eq_getElem _ 0 hlen,
    List.getD_eq_getElem _ 0 (show 0 < (bs.drop a).length by rw [h]; simp)]
  simp [List.getElem_drop]

/-- The ten byte-groups of the serialized covered region, with their lengths. -/
theorem hvLen (h : BDBFileHeader) : ([h.version] : List Nat).length = 1 := rfl

theorem htLen (h : BDBFileHeader) : ([h.table_type.toU8] : List Nat).length = 1 := rfl

theorem hcLen (h : BDBFileHeader) : ([h.compression.toU8] : List Nat).length = 1 := rfl

theorem heLen (h : BDBFileHeader) : ([h.encryption.toU8] : List Nat).length = 1 := rfl

theorem parseHeaderFields_covered_append (h : BDBFileHeader) (hwf : h.WF) (t : List Nat) :
    parseHeaderFields (headerCovered h ++ t) = { h with header_crc := leVal (t.take 4) } := by
  obtain ⟨h9, -, -, hc, hm2, hf, hr2, h6, -⟩ := hwf
  simp only [headerCovered, List.append_assoc]
  unfold parseHeaderFields
  simp only [BDBFileHeader.mk.injEq]
  refine ⟨?_, ?_, ?_, ?_, ?_, ?_, ?_, ?_, ?_, ?_, ?_⟩
  · exact List.take_left' h9
  · apply getD_eq_of_drop
    rw [drop_chunk (show h.magic.length + 0 = 9 by omega), List.drop_zero]
    rfl
  · rw [drop_chunk (show h.magic.length + 1 = 10 by omega),
      drop_chunk (show ([h.version] : List Nat).length + 0 = 1 from rfl), List.drop_zero,
      List.take_left' (leBytes_length 8 _), leVal_leBytes]
    omega
  · rw [drop_chunk (show h.magic.length + 9 = 18 by omega),
      drop_chunk (show ([h.version] : List Nat).length + 8 = 9 from rfl),
      drop_chunk (show (leBytes 8 h.created_at).length + 0 = 8 by rw [leBytes_length]),
      List.drop_zero, List.take_left' (leBytes_length 8 _), leVal_leBytes]
    omega
  · rw [drop_chunk (show h.magic.length + 17 = 26 by omega),
      drop_chunk (show ([h.version] : List Nat).length + 16 = 17 from rfl),
      drop_chunk (show (leBytes 8 h.created_at).length + 8 = 16 by rw [leBytes_length]),
      drop_chunk (show (leBytes 8 h.modified_at).length + 0 = 8 by rw [leBytes_length]),
      List.drop_zero, List.take_left' (leBytes_length 4 _), leVal_leBytes]
    omega
  · rw [drop_chunk (show h.magic.length + 21 = 30 by omega),
      drop_chunk (show ([h.version] : List Nat).length + 20 = 21 from rfl),
      drop_chunk (show (leBytes 8 h.created_at).length + 12 = 20 by rw [leBytes_length]),
      drop_chunk (show (leBytes 8 h.modified_at).length + 4 = 12 by rw [leBytes_length]),
      drop_chunk (show (leBytes 4 h.flags).length + 0 = 4 by rw [leBytes_length]),
      List.drop_zero, List.take_left' (leBytes_length 4 _), leVal_leBytes]
    omega
  · rw [getD_eq_of_drop (c := h.table_type.toU8) ?_, tableType_roundtrip]
    rotate_left
    rw [drop_chunk (show h.magic.length + 25 = 34 by omega),
      drop_chunk (show ([h.version] : List Nat).length + 24 = 25 from rfl),
      drop_chunk (show (leBytes 8 h.created_at).length + 16 = 24 by rw [leBytes_length]),
      drop_chunk (show (leBytes 8 h.modified_at).length + 8 = 16 by rw [leBytes_length]),
      drop_chunk (show (leBytes 4 h.flags).length + 4 = 8 by rw [leBytes_length]),
      drop_chunk (show (leBytes 4 h.reserved).length + 0 = 4 by rw [leBytes_length]),
      List.drop_zero]
    rfl
  · rw [getD_eq_of_drop (c := h.compression.toU8) ?_, compression_roundtrip]
    rotate_left
    rw [drop_chunk (show h.magic.length + 26 = 35 by omega),
      drop_chunk (show ([h.version] : List Nat).length + 25 = 26 from rfl),
      drop_chunk (show (leBytes 8 h.created_at).length + 17 = 25 by rw [leBytes_length]),
      drop_chunk (show (leBytes 8 h.modified_at).length + 9 = 17 by rw [leBytes_length]),
      drop_chunk (show (leBytes 4 h.flags).length + 5 = 9 by rw [leBytes_length]),
      drop_chunk (show (leBytes 4 h.reserved).length + 1 = 5 by rw [leBytes_length]),
      drop_chunk (show ([h.table_type.toU8] : List Nat).length + 0 = 1 from rfl),
      List.drop_zero]
    rfl
  · rw [getD_eq_of_drop (c := h.encryption.toU8) ?_, encryption_roundtrip]
    rotate_left
    rw [drop_chunk (show h.magic.length + 27 = 36 by omega),
      drop_chunk (show ([h.version] : List Nat).length + 26 = 27 from rfl),
      drop_chunk (show (leBytes 8 h.created_at).length + 18 = 26 by rw [leBytes_length]),
      drop_chunk (show (leBytes 8 h.modified_at).length + 10 = 18 by rw [leBytes_length]),
      drop_chunk (show (leBytes 4 h.flags).length + 6 = 10 by rw [leBytes_length]),
      drop_chunk (show (leBytes 4 h.reserved).length + 2 = 6 by rw [leBytes_length]),
      drop_chunk (show ([h.table_type.toU8] : List Nat).length + 1 = 2 from rfl),
      drop_chunk (show ([h.compression.toU8] : List Nat).length + 0 = 1 from rfl),
      List.drop_zero]
    rfl
  · rw [drop_chunk (show h.magic.length + 28 = 37 by omega),
      drop_chunk (show ([h.version] : List Nat).length + 27 = 28 from rfl),
      drop_chunk (show (leBytes 8 h.created_at).length + 19 = 27 by rw [leBytes_length]),
      drop_chunk (show (leBytes 8 h.modified_at).length + 11 = 19 by rw [leBytes_length]),
      drop_chunk (show (leBytes 4 h.flags).length + 7 = 11 by rw [leBytes_length]),
      drop_chunk (show (leBytes 4 h.reserved).length + 3 = 7 by rw [leBytes_length]),
      drop_chunk (show ([h.table_type.toU8] : List Nat).length + 2 = 3 from rfl),
      drop_chunk (show ([h.compression.toU8] : List Nat).length + 1 = 2 from rfl),
      drop_chunk (show ([h.encryption.toU8] : List Nat).length + 0 = 1 from rfl),
      List.drop_zero, List.take_left' h6]
  · rw [drop_chunk (show h.magic.length + 34 = 43 by omega),
      drop_chunk (show ([h.version] : List Nat).length + 33 = 34 from rfl),
      drop_chunk (show (leBytes 8 h.created_at).length + 25 = 33 by rw [leBytes_length]),
      drop_chunk (show (leBytes 8 h.modified_at).length + 17 = 25 by rw [leBytes_length]),
      drop_chunk (show (leBytes 4 h.flags).length + 13 = 17 by rw [leBytes_length]),
      drop_chunk (show (leBytes 4 h.reserved).length + 9 = 13 by rw [leBytes_length]),
      drop_chunk (show ([h.table_type.toU8] : List Nat).length + 8 = 9 from rfl),
      drop_chunk (show ([h.compression.toU8] : List Nat).length + 7 = 8 from rfl),
      drop_chunk (show ([h.encryption.toU8] : List Nat).length + 6 = 7 from rfl),
      drop_chunk (show h.reserved_bytes.length + 0 = 6 by omega),
      List.drop_zero]

theorem leBytes_leVal' {s : List Nat} {w : Nat} (hl : s.length = w) (hok : ByteOk s) :
    leBytes w (leVal s) = s := by
  subst hl
  exact leBytes_leVal s hok

theorem seg_length {bs : List Nat} {a w : Nat} (h : a + w ≤ bs.length) :
    ((bs.drop a).take w).length = w := by
  simp
  omega

theorem seg_byteOk {bs : List Nat} (a w : Nat) (hok : ByteOk bs) :
    ByteOk ((bs.drop a).take w) :=
  fun b hb => hok b (List.mem_of_mem_drop (List.mem_of_mem_take hb))

theorem take_glue {l X : List Nat} {a b c : Nat} (h : a + b = c) :
    l.take a ++ ((l.drop a).take b ++ X) = l.take c ++ X := by
  rw [← List.append_assoc, ← List.take_add, h]

/-- What `BDBFileHeader::read` reserializes to: the raw input bytes, except
that the three tag bytes pass through their (collapsing) decoders. -/
theorem headerCovered_parse (bs : List Nat) (hl : 47 ≤ bs.length) (hok : ByteOk bs) :
    headerCovered (parseHeaderFields bs) =
      bs.take 34 ++ ((tableTypeFromU8 (bs.getD 34 0)).toU8 ::
        (compressionFromU8 (bs.getD 35 0)).toU8 ::
        (encryptionFromU8 (bs.getD 36 0)).toU8 :: (bs.drop 37).take 6) := by
  unfold headerCovered parseHeaderFields
  simp only
  rw [leBytes_leVal' (seg_length (by omega)) (seg_byteOk 10 8 hok),
    leBytes_leVal' (seg_length (by omega)) (seg_byteOk 18 8 hok),
    leBytes_leVal' (seg_length (by omega)) (seg_byteOk 26 4 hok),
    leBytes_leVal' (seg_length (by omega)) (seg_byteOk 30 4 hok),
    ← take_one_drop bs 9 (by omega),
    take_glue (show (9 : Nat) + 1 = 10 from rfl),
    take_glue (show (10 : Nat) + 8 = 18 from rfl),
    take_glue (show (18 : Nat) + 8 = 26 from rfl),
    take_glue (show (26 : Nat) + 4 = 30 from rfl),
    take_glue (show (30 : Nat) + 4 = 34 from rfl)]
  rfl

/-- `headerCovered` does not include the stored CRC field. -/
theorem headerCovered_set_crc (h : BDBFileHeader) (x : Nat) :
    headerCovered { h with header_crc := x } = headerCovered h := rfl

theorem flipBit_length {bs : List Nat} {j k : Nat} (hj : j < bs.length) :
    (flipBit bs j k).length = bs.length := by
  simp [flipBit]
  omega

theorem one_shiftLeft_lt_256 {k : Nat} (hk : k < 8) : 1 <<< k < 256 := by
  rw [Nat.one_shiftLeft]
  calc (2 : Nat) ^ k < 2 ^ 8 := Nat.pow_lt_pow_right (by norm_num) hk
  _ = 256 := by norm_num

theorem flipBit_byteOk {bs : List Nat} {j k : Nat} (hok : ByteOk bs) (hj : j < bs.length)
    (hk : k < 8) : ByteOk (flipBit bs j k) := by
  intro b hb
  unfold flipBit at hb
  rcases List.mem_append.mp hb with hb | hb
  · exact hok b (List.mem_of_mem_take hb)
  · rcases List.mem_cons.mp hb with hb | hb
    · subst hb
      have h1 : bs.getD j 0 < 256 := by
        rw [List.getD_eq_getElem _ 0 hj]
        exact hok _ (List.getElem_mem hj)
      have : (256 : Nat) = 2 ^ 8 := by norm_num
      rw [this]
      exact Nat.xor_lt_two_pow (by omega) (by have := one_shiftLeft_lt_256 hk; omega)
    · exact hok b (List.mem_of_mem_drop hb)

theorem getD_drop_add {bs : List Nat} {i j : Nat} (h : i + j < bs.length) :
    (bs.drop i).getD j 0 = bs.getD (i + j) 0 := by
  rw [List.getD_eq_getElem _ 0 (by simp; omega), List.getD_eq_getElem _ 0 h]
  exact List.getElem_drop bs

theorem getD_take_lt {bs : List Nat} {n m : Nat} (h : m < n) (h2 : m < bs.length) :
    (bs.take n).getD m 0 = bs.getD m 0 := by
  rw [List.getD_eq_getElem _ 0 (by simp; omega), List.getD_eq_getElem _ 0 h2]
  exact List.getElem_take bs

theorem flipBit_getD_self {bs : List Nat} {j k : Nat} (hj : j < bs.length) :
    (flipBit bs j k).getD j 0 = bs.getD j 0 ^^^ (1 <<< k) := by
  unfold flipBit
  rw [getD_append_big (by simp only [List.length_take]; omega)
    (by simp only [List.length_take, List.length_cons, List.length_drop]; omega)]
  have hmin : (bs.take j).length = j := by rw [List.length_take]; omega
  rw [hmin, Nat.sub_self, List.getD_cons_zero]

theorem flipBit_getD_ne {bs : List Nat} {j k m : Nat} (hj : j < bs.length) (hne : m ≠ j)
    (hm : m < bs.length) : (flipBit bs j k).getD m 0 = bs.getD m 0 := by
  unfold flipBit
  rcases Nat.lt_or_ge m j with hlt | hge
  · rw [getD_append_left (by simp; omega)]
    exact getD_take_lt hlt hm
  · have hgt : j < m := by omega
    rw [getD_append_big (by simp; omega) (by simp; omega)]
    rw [List.length_take, show min j bs.length = j by omega,
      show m - j = (m - j - 1) + 1 by omega, List.getD_cons_succ,
      getD_drop_add (by omega)]
    congr 1
    omega

theorem flipBit_drop_big {bs : List Nat} {j k n : Nat} (hj : j < n) (hn : n ≤ bs.length) :
    (flipBit bs j k).drop n = bs.drop n := by
  unfold flipBit
  rw [drop_chunk (show (bs.take j).length + (n - j) = n by simp; omega),
    show n - j = (n - j - 1) + 1 by omega, List.drop_succ_cons,
    List.drop_drop]
  congr 1
  omega

/-- Pointwise description of the reserialized covered region
`bs.take 34 ++ tag₁ :: tag₂ :: tag₃ :: (bs.drop 37).take 6`. -/
theorem tagform_getD (bs : List Nat) (hb : 47 ≤ bs.length) (t c e m : Nat) (hm : m < 43) :
    (bs.take 34 ++ t :: c :: e :: (bs.drop 37).take 6).getD m 0 =
      if m < 34 then bs.getD m 0 else if m = 34 then t else if m = 35 then c
      else if m = 36 then e else bs.getD m 0 := by
  have h34 : (bs.take 34).length = 34 := by rw [List.length_take]; omega
  by_cases h1 : m < 34
  · rw [getD_append_left (by omega), getD_take_lt h1 (by omega), if_pos h1]
  · push_neg at h1
    rw [getD_append_big (by omega)
      (by simp only [List.length_take, List.length_cons, List.length_drop]; omega), h34]
    by_cases h2 : m = 34
    · subst h2
      rw [show (34 : Nat) - 34 = 0 from rfl, List.getD_cons_zero,
        if_neg (by omega), if_pos rfl]
    · by_cases h3 : m = 35
      · subst h3
        have hv : (t :: c :: e :: (bs.drop 37).take 6).getD (35 - 34) 0 = c := rfl
        rw [hv, if_neg (by omega), if_neg (by omega), if_pos rfl]
      · by_cases h4 : m = 36
        · subst h4
          have hv : (t :: c :: e :: (bs.drop 37).take 6).getD (36 - 34) 0 = e := rfl
          rw [hv, if_neg (by omega), if_neg (by omega), if_neg (by omega), if_pos rfl]
        · have h5 : 37 ≤ m := by omega
          rw [show m - 34 = (m - 37) + 1 + 1 + 1 by omega, List.getD_cons_succ,
            List.getD_cons_succ, List.getD_cons_succ,
            getD_take_lt (by omega) (by simp only [List.length_drop]; omega),
            getD_drop_add (by omega), show 37 + (m - 37) = m by omega,
            if_neg (by omega), if_neg h2, if_neg h3, if_neg h4]

theorem list_eq_of_getD {X Y : List Nat} (hlen : Y.length = X.length)
    (hgetD : ∀ m, m < X.length → Y.getD m 0 = X.getD m 0) : Y = X := by
  apply List.ext_getElem hlen
  intro i h1 h2
  have hi := hgetD i h2
  rw [List.getD_eq_getElem _ 0 h1, List.getD_eq_getElem _ 0 h2] at hi
  exact hi

theorem xor_ne_left {a d : Nat} (hd : d ≠ 0) : a ^^^ d ≠ a := by
  intro hEq
  apply hd
  rw [← xor_cancel_left a d, hEq, Nat.xor_self]

/-- Claim C6 (amended): flipping a single bit of a written header inside the
CRC-covered region, at any byte other than the three tag bytes (offset 34
table-kind, 35 compression, 36 encryption), makes `BDBFileHeader::read` fail:
either the magic no longer matches, or the recomputed CRC differs from the
stored one by a nonzero CRC32 delta. -/
theorem header_bitflip_fails (h : BDBFileHeader) (hwf : h.WF) (j k : Nat)
    (hj : j < 43) (hk : k < 8) (t34 : j ≠ 34) (t35 : j ≠ 35) (t36 : j ≠ 36) :
    ∃ s, BDBFileHeader.readBytes (flipBit h.writeBytes j k) = .error s := by
  have hbl : h.writeBytes.length = 47 := writeBytes_length hwf
  have hbok : ByteOk h.writeBytes := writeBytes_byteOk hwf
  have hXlen : (headerCovered h).length = 43 := headerCovered_length hwf
  have hcalc_lt : h.calculate_crc < 256 ^ 4 := by
    have hlt := crc32_lt (headerCovered h) (fun b hb => by
      have := headerCovered_byteOk hwf b hb; omega)
    have h2 : (2 : Nat) ^ 32 = 256 ^ 4 := by norm_num
    show crc32 (headerCovered h) < 256 ^ 4
    rw [← h2]
    exact hlt
  have hparse : parseHeaderFields h.writeBytes = { h with header_crc := h.calculate_crc } := by
    have hp := parseHeaderFields_covered_append h hwf (leBytes 4 h.calculate_crc)
    rw [List.take_of_length_le (by simp [leBytes_length]), leVal_leBytes,
      Nat.mod_eq_of_lt hcalc_lt] at hp
    exact hp
  have hbl' : (flipBit h.writeBytes j k).length = 47 := by
    rw [flipBit_length (by omega)]
    exact hbl
  have hbok' : ByteOk (flipBit h.writeBytes j k) := flipBit_byteOk hbok (by omega) hk
  have ht34 : (flipBit h.writeBytes j k).getD 34 0 = h.writeBytes.getD 34 0 :=
    flipBit_getD_ne (by omega) (fun hh => t34 hh.symm) (by omega)
  have ht35 : (flipBit h.writeBytes j k).getD 35 0 = h.writeBytes.getD 35 0 :=
    flipBit_getD_ne (by omega) (fun hh => t35 hh.symm) (by omega)
  have ht36 : (flipBit h.writeBytes j k).getD 36 0 = h.writeBytes.getD 36 0 :=
    flipBit_getD_ne (by omega) (fun hh => t36 hh.symm) (by omega)
  have hXform : headerCovered h = h.writeBytes.take 34 ++
      ((tableTypeFromU8 (h.writeBytes.getD 34 0)).toU8 ::
       (compressionFromU8 (h.writeBytes.getD 35 0)).toU8 ::
       (encryptionFromU8 (h.writeBytes.getD 36 0)).toU8 ::
       (h.writeBytes.drop 37).take 6) := by
    have hcp := headerCovered_parse h.writeBytes (by omega) hbok
    rw [hparse, headerCovered_set_crc] at hcp
    exact hcp
  have hYform := headerCovered_parse (flipBit h.writeBytes j k) (by omega) hbok'
  have hYflip : headerCovered (parseHeaderFields (flipBit h.writeBytes j k)) =
      flipBit (headerCovered h) j k := by
    apply list_eq_of_getD
    · rw [flipBit_length (by omega), hXlen, hYform]
      simp only [List.length_append, List.length_take, List.length_cons, List.length_drop,
        hbl']
      omega
    · intro m hm
      rw [flipBit_length (by omega), hXlen] at hm
      have hX : ∀ n, n < 43 → (headerCovered h).getD n 0 =
          (if n < 34 then h.writeBytes.getD n 0
           else if n = 34 then (tableTypeFromU8 (h.writeBytes.getD 34 0)).toU8
           else if n = 35 then (compressionFromU8 (h.writeBytes.getD 35 0)).toU8
           else if n = 36 then (encryptionFromU8 (h.writeBytes.getD 36 0)).toU8
           else h.writeBytes.getD n 0) := by
        intro n hn
        rw [hXform]
        exact tagform_getD h.writeBytes (by omega) _ _ _ n hn
      rw [hYform, tagform_getD (flipBit h.writeBytes j k) (by omega) _ _ _ m hm,
        ht34, ht35, ht36]
      by_cases hmj : m = j
      · subst hmj
        have hR2 : (flipBit (headerCovered h) m k).getD m 0 =
            (headerCovered h).getD m 0 ^^^ (1 <<< k) := flipBit_getD_self (by omega)
        have hS : (flipBit h.writeBytes m k).getD m 0 =
            h.writeBytes.getD m 0 ^^^ (1 <<< k) := flipBit_getD_self (by omega)
        rw [hR2, hX m hm]
        rcases Nat.lt_or_ge m 34 with hm34 | hm34
        · rw [if_pos hm34, if_pos hm34, hS]
        · rw [if_neg (by omega), if_neg t34, if_neg t35, if_neg t36,
            if_neg (by omega), if_neg t34, if_neg t35, if_neg t36, hS]
      · have hR1 : (flipBit (headerCovered h) j k).getD m 0 =
            (headerCovered h).getD m 0 := flipBit_getD_ne (by omega) hmj (by omega)
        have hN : (flipBit h.writeBytes j k).getD m 0 =
            h.writeBytes.getD m 0 := flipBit_getD_ne (by omega) hmj (by omega)
        rw [hR1, hX m hm]
        by_cases hm34 : m < 34
        · rw [if_pos hm34, if_pos hm34, hN]
        · by_cases e34 : m = 34
          · rw [if_neg hm34, if_neg hm34, if_pos e34, if_pos e34]
          · by_cases e35 : m = 35
            · rw [if_neg hm34, if_neg hm34, if_neg e34, if_neg e34, if_pos e35, if_pos e35]
            · by_cases e36 : m = 36
              · rw [if_neg hm34, if_neg hm34, if_neg e34, if_neg e34, if_neg e35,
                  if_neg e35, if_pos e36, if_pos e36]
              · rw [if_neg hm34, if_neg hm34, if_neg e34, if_neg e34, if_neg e35,
                  if_neg e35, if_neg e36, if_neg e36, hN]
  have hcrcne : crc32 (headerCovered (parseHeaderFields (flipBit h.writeBytes j k))) ≠
      crc32 (headerCovered h) := by
    rw [hYflip]
    have hdec := eq_take_cons_drop (headerCovered h) j (by omega)
    show crc32 ((headerCovered h).take j ++
      ((headerCovered h).getD j 0 ^^^ (1 <<< k)) :: (headerCovered h).drop (j + 1)) ≠ _
    conv_rhs => rw [hdec]
    rw [crc32_flip]
    apply xor_ne_left
    have hBlen : ((headerCovered h).drop (j + 1)).length + 1 = 43 - j := by
      rw [List.length_drop, hXlen]
      omega
    rw [hBlen]
    exact crc_delta_ne_zero j hj k hk
  have hstored : (parseHeaderFields (flipBit h.writeBytes j k)).header_crc =
      h.calculate_crc := by
    show leVal (((flipBit h.writeBytes j k).drop 43).take 4) = _
    rw [flipBit_drop_big hj (by omega)]
    have hdrop : h.writeBytes.drop 43 = leBytes 4 h.calculate_crc := by
      unfold BDBFileHeader.writeBytes
      exact List.drop_left' hXlen
    rw [hdrop, List.take_of_length_le (by simp [leBytes_length]), leVal_leBytes,
      Nat.mod_eq_of_lt hcalc_lt]
  unfold BDBFileHeader.readBytes
  rw [if_neg (by omega)]
  by_cases hmag : (flipBit h.writeBytes j k).take 9 = MAGIC_BYTES
  · rw [if_neg (by simp [hmag]), if_pos ?_]
    · exact ⟨_, rfl⟩
    · rw [hstored]
      intro hEq
      exact hcrcne hEq
  · rw [if_pos hmag]
    exact ⟨_, rfl⟩

/-- A concrete well-formed header (as `BDBFileHeader::new(TableType::History)`
would produce at some fixed timestamp). -/
def exHeader : BDBFileHeader where
  magic := MAGIC_BYTES
  version := 1
  created_at := 1700000000000
  modified_at := 1700000000000
  flags := 0
  reserved := 0
  table_type := .History
  compression := .None
  encryption := .None
  reserved_bytes := [0, 0, 0, 0, 0, 0]
  header_crc := 0

set_option maxRecDepth 100000 in
/-- Witness for C6 (amended) at a concrete header, byte 10 (inside
`created_at`), bit 3. -/
theorem header_bitflip_fails_witness :
    exHeader.WF ∧ 10 < 43 ∧ 3 < 8 ∧
      (∃ s, BDBFileHeader.readBytes (flipBit exHeader.writeBytes 10 3) = .error s) :=
  ⟨by decide, by norm_num, by norm_num,
    header_bitflip_fails exHeader (by decide) 10 3 (by norm_num) (by norm_num)
      (by norm_num) (by norm_num) (by norm_num)⟩

set_option maxRecDepth 100000 in
/-- Counterexample to C6 as stated: flipping bit 2 of byte 35 (the
compression tag, inside the CRC-covered region) of a written header does
NOT make the read fail — the flipped byte 4 is an unknown compression tag,
decodes back to `None` (byte 0), and the recomputed CRC matches again. -/
theorem header_bitflip_counterexample :
    (BDBFileHeader.readBytes (flipBit exHeader.writeBytes 35 2)).isOk = true := by
  decide

/-- Claim C4 (amended): `BDBFileHeader::read` on a full-length input fails
exactly on a magic mismatch or a stored-CRC mismatch; the format version
byte is parsed but never validated, so it does not appear in the success
condition. -/
theorem readBytes_ok_iff (bs : List Nat) (hl : ¬ bs.length < 47) :
    (BDBFileHeader.readBytes bs).isOk = true ↔
      (bs.take 9 = MAGIC_BYTES ∧
        (parseHeaderFields bs).calculate_crc = (parseHeaderFields bs).header_crc) := by
  unfold BDBFileHeader.readBytes
  rw [if_neg hl]
  by_cases hmag : bs.take 9 = MAGIC_BYTES
  · rw [if_neg (by simp [hmag])]
    by_cases hcrc : (parseHeaderFields bs).calculate_crc = (parseHeaderFields bs).header_crc
    · rw [if_neg (by simp [hcrc])]
      exact ⟨fun _ => ⟨hmag, hcrc⟩, fun _ => rfl⟩
    · rw [if_pos hcrc]
      exact ⟨fun hko => Bool.noConfusion hko, fun hh => absurd hh.2 hcrc⟩
  · rw [if_pos hmag]
    exact ⟨fun hko => Bool.noConfusion hko, fun hh => absurd hh.1 hmag⟩

/-- The same concrete header with format version byte 2 instead of 1. -/
def exHeaderV2 : BDBFileHeader := { exHeader with version := 2 }

set_option maxRecDepth 100000 in
/-- Counterexample to C4 as stated: a header whose version byte is 2 (not
`BDB_VERSION = 1`) but whose CRC is consistent is read successfully —
the version mismatch is not a fatal read error. -/
theorem version_mismatch_accepted :
    exHeaderV2.version = 2 ∧ exHeaderV2.version ≠ BDB_VERSION ∧
      (BDBFileHeader.readBytes exHeaderV2.writeBytes).isOk = true := by
  refine ⟨rfl, by decide, ?_⟩
  decide

set_option maxRecDepth 100000 in
/-- Witness for C4 (amended) at the concrete version-2 header bytes. -/
theorem readBytes_ok_iff_witness :
    ¬ (exHeaderV2.writeBytes.length < 47) ∧
      ((BDBFileHeader.readBytes exHeaderV2.writeBytes).isOk = true ↔
        (exHeaderV2.writeBytes.take 9 = MAGIC_BYTES ∧
          (parseHeaderFields exHeaderV2.writeBytes).calculate_crc =
            (parseHeaderFields exHeaderV2.writeBytes).header_crc)) :=
  ⟨by decide, readBytes_ok_iff exHeaderV2.writeBytes (by decide)⟩

/-! ## Framed log entries (`format.rs`, `BDBLogEntry`) -/

structure BDBLogEntry where
  entry_type : EntryType
  key : List Nat
  value : List Nat
  timestamp : Nat
  entry_crc : Nat
  deriving DecidableEq, Repr

/-- `BDBLogEntry::calculate_crc`: CRC32 over the kind byte, the key bytes,
the value bytes and the 8 timestamp bytes.  The length varints are not
covered. -/
def BDBLogEntry.calculate_crc (e : BDBLogEntry) : Nat :=
  crc32 ([e.entry_type.toU8] ++ (e.key ++ (e.value ++ leBytes 8 e.timestamp)))

/-- The frame `BDBLogEntry::write` emits — kind byte, varint key length,
varint value length, key, value, little-endian timestamp, 4 CRC bytes —
with the stored CRC as a parameter. -/
def frameBytesWith (e : BDBLogEntry) (c : Nat) : List Nat :=
  [e.entry_type.toU8] ++ (write_varint e.key.length ++ (write_varint e.value.length ++
    (e.key ++ (e.value ++ (leBytes 8 e.timestamp ++ leBytes 4 c)))))

/-- `BDBLogEntry::write`: sets `entry_crc = calculate_crc()`, then emits the
frame. -/
def BDBLogEntry.writeBytes (e : BDBLogEntry) : List Nat :=
  frameBytesWith e e.calculate_crc

/-- `read_exact` into an `n`-byte buffer. -/
def readExact (n : Nat) (bs : List Nat) : Except String (List Nat × List Nat) :=
  if bs.length < n then .error "eof" else .ok (bs.take n, bs.drop n)

/-- `BDBLogEntry::read`: kind byte, two varints, key, value, timestamp and
stored CRC.  The stored CRC is returned as read — `read` never recomputes
or compares it. -/
def BDBLogEntry.readBytes (bs : List Nat) : Except String (BDBLogEntry × List Nat) :=
  match bs with
  | [] => .error "eof"
  | b :: r0 =>
    match read_varint r0 with
    | .error s => .error s
    | .ok (kl, r1) =>
      match read_varint r1 with
      | .error s => .error s
      | .ok (vl, r2) =>
        match readExact kl r2 with
        | .error s => .error s
        | .ok (key, r3) =>
          match readExact vl r3 with
          | .error s => .error s
          | .ok (value, r4) =>
            match readExact 8 r4 with
            | .error s => .error s
            | .ok (tsb, r5) =>
              match readExact 4 r5 with
              | .error s => .error s
              | .ok (cb, r6) =>
                .ok ({ entry_type := entryTypeFromU8 b, key := key, value := value,
                       timestamp := leVal tsb, entry_crc := leVal cb }, r6)

theorem read_varint_append (v : Nat) (hv : v < 2 ^ 64) (r : List Nat) :
    read_varint (write_varint v ++ r) = .ok (v, r) := by
  have := read_varint_aux_write v 0 0 r (by omega) (by simpa using hv)
  simpa [read_varint] using this

theorem readExact_len {n : Nat} {s : List Nat} (h : s.length = n) (r : List Nat) :
    readExact n (s ++ r) = .ok (s, r) := by
  unfold readExact
  rw [if_neg (by simp only [List.length_append]; omega), List.take_left' h,
    List.drop_left' h]

/-- A structurally well-formed frame parses back to its fields and the
stored CRC — whatever that stored CRC is.  `read` performs no CRC check. -/
theorem logEntry_read_append (e : BDBLogEntry) (c : Nat) (r : List Nat)
    (hk : e.key.length < 2 ^ 64) (hv : e.value.length < 2 ^ 64)
    (hts : e.timestamp < 256 ^ 8) (hc : c < 256 ^ 4) :
    BDBLogEntry.readBytes (frameBytesWith e c ++ r) = .ok ({ e with entry_crc := c }, r) := by
  unfold frameBytesWith BDBLogEntry.readBytes
  simp only [List.singleton_append, List.cons_append, List.append_assoc, List.nil_append]
  rw [read_varint_append e.key.length hk]
  dsimp only
  rw [read_varint_append e.value.length hv]
  dsimp only
  rw [readExact_len rfl]
  dsimp only
  rw [readExact_len rfl]
  dsimp only
  rw [readExact_len (leBytes_length 8 e.timestamp)]
  dsimp only
  rw [readExact_len (leBytes_length 4 c)]
  dsimp only
  rw [entryType_roundtrip, leVal_leBytes, leVal_leBytes, Nat.mod_eq_of_lt hts,
    Nat.mod_eq_of_lt hc]

/-- A concrete record. -/
def exEntry : BDBLogEntry where
  entry_type := .Insert
  key := [107]
  value := [118]
  timestamp := 5
  entry_crc := 0

set_option maxRecDepth 100000 in
/-- Counterexample to C3 as stated: a frame whose stored CRC (here 1) does
not match the CRC recomputed over kind/key/value/timestamp is read
successfully — `BDBLogEntry::read` fails on no CRC mismatch. -/
theorem frame_bad_crc_read_ok :
    1 ≠ exEntry.calculate_crc ∧
      BDBLogEntry.readBytes (frameBytesWith exEntry 1) =
        .ok ({ exEntry with entry_crc := 1 }, []) := by
  constructor
  · decide
  · rfl

/-! ## Bloom filter (`heatmap.rs`, `BloomFilter`)

The constructor's sizing arithmetic is `f64` in the source.  It is modelled
in exact rational arithmetic over the IEEE-754 double values of the
constants involved (`ln 0.01`, `ln(2)²`, `ln 2`), with Rust's truncating
`as usize` / `as u32` casts as `Nat` division.  `Nat` division by zero
yields 0, which coincides with Rust's saturating NaN-to-integer cast in
the `expected_elements = 0` case. -/

/-- `|ln 0.01|` as an IEEE-754 double is `LNP_NUM / 2^50`. -/
def LNP_NUM : Nat := 5184960683398421

/-- `ln(2)^2` (as `2.0f64.ln().powi(2)` computes it) is `L2SQ_NUM / 2^53`. -/
def L2SQ_NUM : Nat := 4327536028902087

/-- `ln 2` as an IEEE-754 double is `LN2_NUM / 2^53`. -/
def LN2_NUM : Nat := 6243314768165359

structure BloomFilter where
  bit_array : List Nat
  bit_array_size : Nat
  num_hashes : Nat
  deriving DecidableEq, Repr

/-- `-((expected_elements as f64 * 0.01f64.ln()) / 2.0f64.ln().powi(2))) as usize`:
`n · |ln 0.01| / ln(2)²  =  n · (LNP_NUM/2^50) / (L2SQ_NUM/2^53)`, truncated. -/
def optimal_bit_size (n : Nat) : Nat := n * LNP_NUM * 8 / L2SQ_NUM

/-- `((optimal_bit_size as f64 / expected_elements as f64) * 2.0f64.ln()) as u32`;
for `n = 0` the Rust expression is `NaN as u32 = 0`, matched here by
`Nat` division by zero. -/
def bloomK (n : Nat) : Nat := optimal_bit_size n * LN2_NUM / (9007199254740992 * n)

/-- `BloomFilter::new(n, 0.01)` — 0.01 is the only false-positive rate the
repository ever passes. -/
def bloomNew (n : Nat) : BloomFilter where
  bit_array := List.replicate ((optimal_bit_size n + 7) / 8) 0
  bit_array_size := (optimal_bit_size n + 7) / 8
  num_hashes := max (bloomK n) 1

/-- The `k` accumulation `k = (k << 8) | b` over `chunk.iter().rev()`
(`k` is a `u32`). -/
def chunkVal (chunk : List Nat) : Nat :=
  chunk.foldr (fun b k => ((k <<< 8) % 2 ^ 32) ||| b) 0

/-- One iteration of the simplified Murmur3-like mixing loop (`h` is a
`u64`, multiplication wraps). -/
def murmurStep (h : Nat) (chunk : List Nat) : Nat :=
  let h1 := h ^^^ chunkVal chunk
  let h2 := (h1 * 0xc6a4a7935bd1e995) % 2 ^ 64
  h2 ^^^ (h2 >>> 47)

/-- `key.chunks(4)` iteration, structurally recursive on a fuel that the
caller sets to `key.length` (each round consumes up to 4 bytes, so that is
always enough). -/
def murmur3Aux : Nat → List Nat → Nat → Nat
  | 0, _, h => h
  | _ + 1, [], h => h
  | f + 1, b :: rest, h => murmur3Aux f ((b :: rest).drop 4) (murmurStep h ((b :: rest).take 4))

/-- `BloomFilter::murmur3`. -/
def murmur3 (key : List Nat) (seed : Nat) : Nat := murmur3Aux key.length key seed

/-- `BloomFilter::fnv1a` (64-bit FNV-1a, wrapping multiply). -/
def fnv1a (key : List Nat) : Nat :=
  key.foldl (fun h b => ((h ^^^ b) * 1099511628211) % 2 ^ 64) 14695981039346656037

/-- `BloomFilter::hash`: `murmur3(key, seed).wrapping_add(fnv1a(key))`. -/
def bloomHash (key : List Nat) (seed : Nat) : Nat :=
  (murmur3 key seed + fnv1a key) % 2 ^ 64

/-- `bit_array[bit_pos / 8] |= 1 << (bit_pos % 8)`. -/
def setBit (a : List Nat) (p : Nat) : List Nat :=
  a.set (p / 8) ((a.getD (p / 8) 0) ||| (1 <<< (p % 8)))

/-- The `for i in 0..num_hashes` loop of `BloomFilter::add`, with fuel
(= remaining iterations) and current index.  `hash % 0` and an
out-of-bounds index are Rust panics, modelled as `none`. -/
def addAux (key : List Nat) (s : Nat) : Nat → Nat → List Nat → Option (List Nat)
  | 0, _, a => some a
  | f + 1, i, a =>
    if s = 0 then none
    else if (bloomHash key i % s) / 8 < a.length then
      addAux key s f (i + 1) (setBit a (bloomHash key i % s))
    else none

/-- `BloomFilter::add`. -/
def BloomFilter.add (b : BloomFilter) (key : List Nat) : Option BloomFilter :=
  match addAux key (b.bit_array_size * 8) b.num_hashes 0 b.bit_array with
  | none => none
  | some a => some { b with bit_array := a }

/-- The `for i in 0..num_hashes` loop of `BloomFilter::might_contain`. -/
def mcAux (key : List Nat) (s : Nat) (a : List Nat) : Nat → Nat → Option Bool
  | 0, _ => some true
  | f + 1, i =>
    if s = 0 then none
    else if (bloomHash key i % s) / 8 < a.length then
      if (a.getD ((bloomHash key i % s) / 8) 0) &&& (1 <<< ((bloomHash key i % s) % 8)) = 0 then
        some false
      else mcAux key s a f (i + 1)
    else none

/-- `BloomFilter::might_contain`. -/
def BloomFilter.might_contain (b : BloomFilter) (key : List Nat) : Option Bool :=
  mcAux key (b.bit_array_size * 8) b.bit_array b.num_hashes 0

/-- The `for idx in &index { bloom.add(&idx.key); }` loops in
`SSTable::create` and `SSTable::open`. -/
def foldAdds (b : BloomFilter) (ks : List (List Nat)) : Option BloomFilter :=
  ks.foldl (fun ob k => ob.bind (fun f => f.add k)) (some b)

/-- Bit `p % 8` of byte `p / 8` of the bit array is set. -/
def bitSet (a : List Nat) (p : Nat) : Prop := (a.getD (p / 8) 0) &&& (1 <<< (p % 8)) ≠ 0

theorem and_pow_ne_zero_iff (x s : Nat) : x &&& (1 <<< s) ≠ 0 ↔ x.testBit s = true := by
  rw [Nat.one_shiftLeft, Nat.and_two_pow]
  cases h : x.testBit s
  · simp
  · have h2 : (2 : Nat) ^ s ≠ 0 := (Nat.two_pow_pos s).ne'
    simp [h2]

theorem getD_set_self (a : List Nat) (i v : Nat) (h : i < a.length) :
    (a.set i v).getD i 0 = v := by
  rw [List.getD_eq_getElem _ 0 (by simp only [List.length_set]; omega)]
  exact List.getElem_set_self _

theorem getD_set_ne (a : List Nat) (i v j : Nat) (h : j ≠ i) :
    (a.set i v).getD j 0 = a.getD j 0 := by
  rcases Nat.lt_or_ge j a.length with hj | hj
  · rw [List.getD_eq_getElem _ 0 (by simp only [List.length_set]; omega),
      List.getD_eq_getElem _ 0 hj]
    exact List.getElem_set_ne (Ne.symm h) _
  · rw [List.getD_eq_default _ 0 (by simp only [List.length_set]; omega),
      List.getD_eq_default _ 0 hj]

theorem setBit_length (a : List Nat) (p : Nat) : (setBit a p).length = a.length := by
  simp [setBit]

theorem bitSet_setBit_self {a : List Nat} {p : Nat} (h : p / 8 < a.length) :
    bitSet (setBit a p) p := by
  unfold bitSet setBit
  rw [getD_set_self _ _ _ h, and_pow_ne_zero_iff, Nat.testBit_or, Nat.one_shiftLeft,
    Nat.testBit_two_pow_self]
  simp

theorem bitSet_setBit_mono {a : List Nat} {p q : Nat} (h : bitSet a q) :
    bitSet (setBit a p) q := by
  unfold bitSet setBit
  by_cases hb : q / 8 = p / 8
  · rcases Nat.lt_or_ge (p / 8) a.length with hp | hp
    · rw [hb, getD_set_self _ _ _ hp]
      rw [and_pow_ne_zero_iff, Nat.testBit_or]
      unfold bitSet at h
      rw [hb, and_pow_ne_zero_iff] at h
      rw [h, Bool.true_or]
    · rw [hb, List.getD_eq_default _ 0 (by simp only [List.length_set]; omega)]
      unfold bitSet at h
      rw [hb, List.getD_eq_default _ 0 hp] at h
      exact h
  · rw [getD_set_ne _ _ _ _ hb]
    exact h

theorem addAux_length {key : List Nat} {s : Nat} :
    ∀ {f i : Nat} {a r : List Nat}, addAux key s f i a = some r → r.length = a.length := by
  intro f
  induction f with
  | zero =>
      intro i a r h
      unfold addAux at h
      cases h
      rfl
  | succ f ih =>
      intro i a r h
      unfold addAux at h
      split at h
      · exact Option.noConfusion h
      · split at h
        · rw [ih h, setBit_length]
        · exact Option.noConfusion h

theorem addAux_mono {key : List Nat} {s : Nat} :
    ∀ {f i : Nat} {a r : List Nat} {q : Nat}, addAux key s f i a = some r →
      bitSet a q → bitSet r q := by
  intro f
  induction f with
  | zero =>
      intro i a r q h hq
      unfold addAux at h
      cases h
      exact hq
  | succ f ih =>
      intro i a r q h hq
      unfold addAux at h
      split at h
      · exact Option.noConfusion h
      · split at h
        · exact ih h (bitSet_setBit_mono hq)
        · exact Option.noConfusion h

theorem addAux_sets {key : List Nat} {s : Nat} :
    ∀ {f i : Nat} {a r : List Nat}, addAux key s f i a = some r →
      ∀ t, t < f → bitSet r (bloomHash key (i + t) % s) := by
  intro f
  induction f with
  | zero =>
      intro i a r _ t ht
      omega
  | succ f ih =>
      intro i a r h t ht
      unfold addAux at h
      split at h
      · exact Option.noConfusion h
      · split at h
        · rcases Nat.eq_zero_or_pos t with ht0 | htp
          · subst ht0
            rw [Nat.add_zero]
            exact addAux_mono h (bitSet_setBit_self (by omega))
          · have := ih h (t - 1) (by omega)
            have harith : i + 1 + (t - 1) = i + t := by omega
            rw [harith] at this
            exact this
        · exact Option.noConfusion h

theorem addAux_s_pos {key : List Nat} {s f i : Nat} {a r : List Nat}
    (h : addAux key s (f + 1) i a = some r) : s ≠ 0 := by
  unfold addAux at h
  split at h
  · exact Option.noConfusion h
  · next hs => exact hs

theorem add_fields {b b' : BloomFilter} {k : List Nat} (h : b.add k = some b') :
    b'.bit_array_size = b.bit_array_size ∧ b'.num_hashes = b.num_hashes ∧
      b'.bit_array.length = b.bit_array.length := by
  unfold BloomFilter.add at h
  split at h
  · exact Option.noConfusion h
  · next a ha =>
      cases h
      exact ⟨rfl, rfl, addAux_length ha⟩

theorem add_mono {b b' : BloomFilter} {k : List Nat} {q : Nat} (h : b.add k = some b')
    (hq : bitSet b.bit_array q) : bitSet b'.bit_array q := by
  unfold BloomFilter.add at h
  split at h
  · exact Option.noConfusion h
  · next a ha =>
      cases h
      exact addAux_mono ha hq

theorem add_sets {b b' : BloomFilter} {k : List Nat} (h : b.add k = some b') :
    ∀ i, i < b.num_hashes → bitSet b'.bit_array (bloomHash k i % (b.bit_array_size * 8)) := by
  unfold BloomFilter.add at h
  split at h
  · exact Option.noConfusion h
  · next a ha =>
      cases h
      intro i hi
      have := addAux_sets ha i hi
      simpa using this

theorem add_s_pos {b b' : BloomFilter} {k : List Nat} (h : b.add k = some b')
    (hn : b.num_hashes ≠ 0) : b.bit_array_size * 8 ≠ 0 := by
  unfold BloomFilter.add at h
  split at h
  · exact Option.noConfusion h
  · next a ha =>
      have h1 : b.num_hashes = (b.num_hashes - 1) + 1 := by omega
      rw [h1] at ha
      exact addAux_s_pos ha

theorem foldAdds_none (ks : List (List Nat)) :
    ks.foldl (fun (ob : Option BloomFilter) k => ob.bind (fun f => f.add k)) none = none := by
  induction ks with
  | nil => rfl
  | cons k ks ih =>
      rw [List.foldl_cons]
      have hn : (none : Option BloomFilter).bind (fun f => f.add k) = none := rfl
      rw [hn, ih]

theorem foldAdds_cons {b b' : BloomFilter} {k : List Nat} {ks : List (List Nat)}
    (h : foldAdds b (k :: ks) = some b') :
    ∃ b₁, b.add k = some b₁ ∧ foldAdds b₁ ks = some b' := by
  unfold foldAdds at h ⊢
  rw [List.foldl_cons] at h
  have hs : (some b).bind (fun f : BloomFilter => f.add k) = b.add k := rfl
  rw [hs] at h
  match hb : b.add k with
  | none =>
      rw [hb, foldAdds_none] at h
      exact Option.noConfusion h
  | some b₁ =>
      rw [hb] at h
      exact ⟨b₁, rfl, h⟩

theorem foldAdds_fields {ks : List (List Nat)} :
    ∀ {b b' : BloomFilter}, foldAdds b ks = some b' →
      b'.bit_array_size = b.bit_array_size ∧ b'.num_hashes = b.num_hashes ∧
        b'.bit_array.length = b.bit_array.length := by
  induction ks with
  | nil =>
      intro b b' h
      cases h
      exact ⟨rfl, rfl, rfl⟩
  | cons k ks ih =>
      intro b b' h
      obtain ⟨b₁, h1, h2⟩ := foldAdds_cons h
      obtain ⟨a1, a2, a3⟩ := add_fields h1
      obtain ⟨c1, c2, c3⟩ := ih h2
      exact ⟨c1.trans a1, c2.trans a2, c3.trans a3⟩

theorem foldAdds_mono {ks : List (List Nat)} :
    ∀ {b b' : BloomFilter} {q : Nat}, foldAdds b ks = some b' →
      bitSet b.bit_array q → bitSet b'.bit_array q := by
  induction ks with
  | nil =>
      intro b b' q h hq
      cases h
      exact hq
  | cons k ks ih =>
      intro b b' q h hq
      obtain ⟨b₁, h1, h2⟩ := foldAdds_cons h
      exact ih h2 (add_mono h1 hq)

theorem foldAdds_mem {ks : List (List Nat)} :
    ∀ {b b' : BloomFilter} {K : List Nat}, foldAdds b ks = some b' → K ∈ ks →
      ∀ i, i < b.num_hashes → bitSet b'.bit_array (bloomHash K i % (b.bit_array_size * 8)) := by
  induction ks with
  | nil =>
      intro b b' K _ hK
      exact absurd hK (List.not_mem_nil K)
  | cons k ks ih =>
      intro b b' K h hK i hi
      obtain ⟨b₁, h1, h2⟩ := foldAdds_cons h
      rcases List.mem_cons.mp hK with hK | hK
      · subst hK
        exact foldAdds_mono h2 (add_sets h1 i hi)
      · obtain ⟨a1, a2, -⟩ := add_fields h1
        have := ih h2 hK i (by omega)
        rw [a1] at this
        exact this

theorem foldAdds_s_pos {ks : List (List Nat)} :
    ∀ {b b' : BloomFilter} {K : List Nat}, foldAdds b ks = some b' → K ∈ ks →
      b.num_hashes ≠ 0 → b.bit_array_size * 8 ≠ 0 := by
  induction ks with
  | nil =>
      intro b b' K _ hK
      exact absurd hK (List.not_mem_nil K)
  | cons k ks ih =>
      intro b b' K h hK hn
      obtain ⟨b₁, h1, h2⟩ := foldAdds_cons h
      rcases List.mem_cons.mp hK with hK | hK
      · exact add_s_pos h1 hn
      · obtain ⟨a1, a2, -⟩ := add_fields h1
        have := ih h2 hK (by omega)
        omega

theorem mcAux_true {key : List Nat} {s : Nat} {a : List Nat} (hs : s ≠ 0)
    (hlen : ∀ p, p < s → p / 8 < a.length) :
    ∀ {f i : Nat}, (∀ t, t < f → bitSet a (bloomHash key (i + t) % s)) →
      mcAux key s a f i = some true := by
  intro f
  induction f with
  | zero => intro i _; rfl
  | succ f ih =>
      intro i hbits
      unfold mcAux
      rw [if_neg hs]
      have hp : bloomHash key i % s < s := Nat.mod_lt _ (by omega)
      rw [if_pos (hlen _ hp)]
      have hb0 := hbits 0 (by omega)
      rw [Nat.add_zero] at hb0
      unfold bitSet at hb0
      rw [if_neg hb0]
      apply ih
      intro t ht
      have := hbits (t + 1) (by omega)
      have harith : i + (t + 1) = i + 1 + t := by omega
      rw [harith] at this
      exact this

/-- Core no-false-negative property: after a successful sequence of `add`
calls, `might_contain` answers `true` for every added key. -/
theorem mightContain_after_foldAdds {b b' : BloomFilter} {ks : List (List Nat)}
    {K : List Nat} (hlen : b.bit_array.length = b.bit_array_size)
    (hf : foldAdds b ks = some b') (hK : K ∈ ks) :
    b'.might_contain K = some true := by
  obtain ⟨f1, f2, f3⟩ := foldAdds_fields hf
  unfold BloomFilter.might_contain
  by_cases hn : b.num_hashes = 0
  · rw [f2, hn]
    rfl
  · have hs : b.bit_array_size * 8 ≠ 0 := foldAdds_s_pos hf hK hn
    rw [f1, f2]
    apply mcAux_true hs
    · intro p hp
      rw [f3, hlen]
      omega
    · intro t ht
      have := foldAdds_mem hf hK t ht
      simpa using this

/-- Claim C8: the Bloom filter has no false negatives — after any sequence
of (non-panicking) `add` calls, `might_contain` answers `true` for every
key that was added. -/
theorem bloom_no_false_negatives (b b' : BloomFilter) (ks : List (List Nat)) (K : List Nat)
    (hlen : b.bit_array.length = b.bit_array_size)
    (hf : foldAdds b ks = some b') (hK : K ∈ ks) :
    b'.might_contain K = some true :=
  mightContain_after_foldAdds hlen hf hK

/-- The filter obtained by adding `[1]` and `[2]` to a fresh 2-element
filter. -/
def exBloom : BloomFilter := (foldAdds (bloomNew 2) [[1], [2]]).getD (bloomNew 2)

set_option maxRecDepth 100000 in
/-- Witness for C8 at a concrete filter and key. -/
theorem bloom_no_false_negatives_witness :
    (bloomNew 2).bit_array.length = (bloomNew 2).bit_array_size ∧
      foldAdds (bloomNew 2) [[1], [2]] = some exBloom ∧ [1] ∈ [[1], [2]] ∧
      exBloom.might_contain [1] = some true :=
  ⟨by decide, by decide, by decide,
    bloom_no_false_negatives (bloomNew 2) exBloom [[1], [2]] [1] (by decide) (by decide)
      (by decide)⟩

/-! ## LSM engine (`lsm_tree.rs`) -/

/-- Lexicographic byte-string comparison (`Vec<u8>`'s `Ord`). -/
def compareBytes : List Nat → List Nat → Ordering
  | [], [] => .eq
  | [], _ :: _ => .lt
  | _ :: _, [] => .gt
  | a :: as, b :: bs =>
    if a < b then .lt else if b < a then .gt else compareBytes as bs

structure KVEntry where
  key : List Nat
  value : List Nat
  timestamp : Nat
  entry_type : EntryType
  deleted : Bool
  deriving DecidableEq, Repr

/-- `KVEntry::size`: `key.len() + value.len() + 8 + 1`. -/
def KVEntry.size (e : KVEntry) : Nat := e.key.length + e.value.length + 8 + 1

/-- `BTreeMap<Vec<u8>, KVEntry>` as an association list in ascending key
order; `insert` returns the replaced entry, as `BTreeMap::insert` does. -/
def btreeInsert (k : List Nat) (v : KVEntry) :
    List (List Nat × KVEntry) → Option KVEntry × List (List Nat × KVEntry)
  | [] => (none, [(k, v)])
  | (k', v') :: rest =>
    match compareBytes k k' with
    | .lt => (none, (k, v) :: (k', v') :: rest)
    | .eq => (some v', (k, v) :: rest)
    | .gt =>
      match btreeInsert k v rest with
      | (old, rest') => (old, (k', v') :: rest')

/-- `BTreeMap::get`. -/
def btreeGet (k : List Nat) : List (List Nat × KVEntry) → Option KVEntry
  | [] => none
  | (k', v') :: rest =>
    match compareBytes k k' with
    | .eq => some v'
    | _ => btreeGet k rest

structure MemTable where
  entries : List (List Nat × KVEntry)
  max_size : Nat
  current_size : Nat
  table_type : TableType
  deriving DecidableEq, Repr

/-- `MemTable::new`. -/
def MemTable.new (max_size : Nat) (t : TableType) : MemTable :=
  { entries := [], max_size := max_size, current_size := 0, table_type := t }

/-- `MemTable::put` with the `SystemTime::now` timestamp made a parameter. -/
def MemTable.put (m : MemTable) (key value : List Nat) (et : EntryType) (ts : Nat) :
    MemTable :=
  let e : KVEntry := { key := key, value := value, timestamp := ts, entry_type := et,
                       deleted := et == .Delete }
  let new_size := e.size
  match btreeInsert key e m.entries with
  | (some old, entries') =>
      { m with entries := entries', current_size := m.current_size - old.size + new_size }
  | (none, entries') =>
      { m with entries := entries', current_size := m.current_size + new_size }

/-- `MemTable::get`. -/
def MemTable.get (m : MemTable) (key : List Nat) : Option KVEntry :=
  btreeGet key m.entries

/-- `MemTable::should_flush`. -/
def MemTable.should_flush (m : MemTable) : Bool := m.max_size ≤ m.current_size

/-- `MemTable::clear`. -/
def MemTable.clear (m : MemTable) : MemTable :=
  { m with entries := [], current_size := 0 }

structure IndexEntry where
  key : List Nat
  position : Nat
  size : Nat
  timestamp : Nat
  deriving DecidableEq, Repr, Inhabited

/-- An SSTable: `data` is the memory-mapped file contents, `index` the
in-memory index built at create/open time. -/
structure SSTable where
  level : Nat
  data : List Nat
  index : List IndexEntry
  bloom_filter : Option BloomFilter
  deriving DecidableEq, Repr, Inhabited

/-- The frame a buffer entry is serialized to (`BDBLogEntry::write` of the
record built in the `SSTable::create` loop). -/
def frameOf (e : KVEntry) : List Nat :=
  BDBLogEntry.writeBytes ⟨e.entry_type, e.key, e.value, e.timestamp, 0⟩

def buildFrames : List (List Nat × KVEntry) → Nat → List Nat × List IndexEntry
  | [], _ => ([], [])
  | (_, e) :: rest, offset =>
    if e.deleted then buildFrames rest offset
    else
      ((frameOf e) ++ (buildFrames rest (offset + (frameOf e).length)).1,
        ⟨e.key, offset, (frameOf e).length, e.timestamp⟩ ::
          (buildFrames rest (offset + (frameOf e).length)).2)

/-- `SSTable::create` (the directory, file name and `mmap` are the list of
written bytes in this model; the level and table kind only affect the file
name).  `none` is a Rust panic inside the Bloom-filter build loop — it is
proved unreachable below. -/
def SSTable.create (level : Nat) (entries : List (List Nat × KVEntry)) : Option SSTable :=
  match foldAdds (bloomNew (buildFrames entries 0).2.length)
      ((buildFrames entries 0).2.map (fun ie => ie.key)) with
  | none => none
  | some bloom =>
    some { level := level, data := (buildFrames entries 0).1,
           index := (buildFrames entries 0).2, bloom_filter := some bloom }

/-- `slice::binary_search_by` on the index with comparator
`|i| i.key.cmp(key)`, with fuel (the interval shrinks every round, so
`index.length + 1` fuel always suffices). -/
def bsearchAux (idx : List IndexEntry) (key : List Nat) : Nat → Nat → Nat → Option Nat
  | 0, _, _ => none
  | f + 1, left, right =>
    if left < right then
      match compareBytes ((idx.getD (left + (right - left) / 2) default).key) key with
      | .lt => bsearchAux idx key f (left + (right - left) / 2 + 1) right
      | .gt => bsearchAux idx key f left (left + (right - left) / 2)
      | .eq => some (left + (right - left) / 2)
    else none

/-- `binary_search_by`; `some` is `Ok(mid)`, `none` is `Err(_)` (the
insertion point is unused by the caller). -/
def bsearch (idx : List IndexEntry) (key : List Nat) : Option Nat :=
  bsearchAux idx key (idx.length + 1) 0 idx.length

/-- `SSTable::get`: Bloom filter first, then binary search, bounds check,
and a re-parse of the frame from the mapped bytes.  Outer `none` is a
panic (inside `might_contain` on a zero-sized filter); `some none` is
"absent". -/
def SSTable.get (t : SSTable) (key : List Nat) : Option (Option KVEntry) :=
  match t.bloom_filter with
  | some bf =>
    match bf.might_contain key with
    | none => none
    | some false => some none
    | some true =>
      match bsearch t.index key with
      | none => some none
      | some i =>
        if (t.index.getD i default).position + (t.index.getD i default).size >
            t.data.length then some none
        else
          match BDBLogEntry.readBytes
              ((t.data.drop (t.index.getD i default).position).take
                (t.index.getD i default).size) with
          | .ok (le, _) =>
            some (some { key := le.key, value := le.value, timestamp := le.timestamp,
                         entry_type := le.entry_type,
                         deleted := le.entry_type == .Delete })
          | .error _ => some none
  | none =>
    match bsearch t.index key with
    | none => some none
    | some i =>
      if (t.index.getD i default).position + (t.index.getD i default).size >
          t.data.length then some none
      else
        match BDBLogEntry.readBytes
            ((t.data.drop (t.index.getD i default).position).take
              (t.index.getD i default).size) with
        | .ok (le, _) =>
          some (some { key := le.key, value := le.value, timestamp := le.timestamp,
                       entry_type := le.entry_type,
                       deleted := le.entry_type == .Delete })
        | .error _ => some none

/-- The scan loop of `SSTable::open`: parse frames sequentially from the
mapped bytes, stopping at the first parse error; fuel is the byte count
(every parsed frame consumes at least its kind byte). -/
def scanFrames : Nat → Nat → List Nat → List IndexEntry
  | 0, _, _ => []
  | f + 1, offset, rest =>
    if rest.length = 0 then []
    else
      match BDBLogEntry.readBytes rest with
      | .error _ => []
      | .ok (e, rest') =>
        { key := e.key, position := offset, size := rest.length - rest'.length,
          timestamp := e.timestamp } ::
          scanFrames f (offset + (rest.length - rest'.length)) rest'

/-- `SSTable::open` on the file contents. -/
def SSTable.open (bytes : List Nat) (level : Nat) : Option SSTable :=
  match foldAdds (bloomNew (scanFrames bytes.length 0 bytes).length)
      ((scanFrames bytes.length 0 bytes).map (fun ie => ie.key)) with
  | none => none
  | some bloom =>
    some { level := level, data := bytes, index := scanFrames bytes.length 0 bytes,
           bloom_filter := some bloom }

structure LSMTree where
  memtable : MemTable
  levels : List (List SSTable)
  table_type : TableType
  deriving Repr

/-- `LSMTree::new` on an empty directory (recovery from existing files is
modelled separately by `lsmRecover`). -/
def LSMTree.new (max_memtable_size : Nat) (t : TableType) : LSMTree :=
  { memtable := MemTable.new max_memtable_size t,
    levels := List.replicate 10 [], table_type := t }

/-- `LSMTree::flush`: no-op on an empty buffer; otherwise create a level-0
SST from the (cloned) entries, clear the buffer, and append the SST to
level 0's list. -/
def LSMTree.flush (l : LSMTree) : Option LSMTree :=
  if l.memtable.entries.isEmpty then some l
  else
    match SSTable.create 0 l.memtable.entries with
    | none => none
    | some sst =>
      some { l with
        memtable := l.memtable.clear
        levels := l.levels.set 0 ((l.levels.getD 0 []) ++ [sst]) }

/-- `LSMTree::put` (timestamp a parameter): insert with kind `Insert`,
then flush if the buffer crossed its threshold. -/
def LSMTree.put (l : LSMTree) (key value : List Nat) (ts : Nat) : Option LSMTree :=
  let mem := l.memtable.put key value .Insert ts
  if mem.should_flush then LSMTree.flush { l with memtable := mem }
  else some { l with memtable := mem }

/-- Probe the SSTs of one level, newest (last-appended) first. -/
def levelGet : List SSTable → List Nat → Option (Option KVEntry)
  | [], _ => some none
  | t :: ts, key =>
    match t.get key with
    | none => none
    | some (some e) => some (some e)
    | some none => levelGet ts key

def levelsGet : List (List SSTable) → List Nat → Option (Option KVEntry)
  | [], _ => some none
  | lvl :: rest, key =>
    match levelGet lvl.reverse key with
    | none => none
    | some (some e) => some (some e)
    | some none => levelsGet rest key

/-- `LSMTree::get`: memtable first, then levels 0..9, each level's SSTs in
reverse insertion order. -/
def LSMTree.get (l : LSMTree) (key : List Nat) : Option (Option KVEntry) :=
  match l.memtable.get key with
  | some e => some (some e)
  | none => levelsGet l.levels key

/-- The recovery scan of `LSMTree::new`: open each `.sst` file found in
the directory (in directory-scan order, which is not specified) and append
it to its level's list; all files here are level-0 files. -/
def lsmRecover (m : Nat) (t : TableType) (fs : List (List Nat)) : Option LSMTree :=
  fs.foldl
    (fun ol bytes => ol.bind (fun l =>
      (SSTable.open bytes 0).map (fun sst =>
        { l with levels := l.levels.set 0 ((l.levels.getD 0 []) ++ [sst]) })))
    (some (LSMTree.new m t))

/-! ### Ordering properties of byte-string comparison -/

theorem compareBytes_eq_iff : ∀ a b : List Nat, compareBytes a b = .eq ↔ a = b := by
  intro a
  induction a with
  | nil =>
      intro b
      cases b <;> simp [compareBytes]
  | cons x xs ih =>
      intro b
      cases b with
      | nil => simp [compareBytes]
      | cons y ys =>
          unfold compareBytes
          by_cases h1 : x < y
          · simp [h1]
            omega
          · rw [if_neg h1]
            by_cases h2 : y < x
            · simp [h2]
              omega
            · rw [if_neg h2]
              have hxy : x = y := by omega
              subst hxy
              simp [ih ys]

theorem compareBytes_self (a : List Nat) : compareBytes a a = .eq :=
  (compareBytes_eq_iff a a).mpr rfl

theorem compareBytes_lt_gt : ∀ a b : List Nat, compareBytes a b = .lt ↔ compareBytes b a = .gt := by
  intro a
  induction a with
  | nil =>
      intro b
      cases b <;> simp [compareBytes]
  | cons x xs ih =>
      intro b
      cases b with
      | nil => simp [compareBytes]
      | cons y ys =>
          unfold compareBytes
          by_cases h1 : x < y
          · rw [if_pos h1, if_neg (by omega), if_pos h1]
            simp
          · rw [if_neg h1]
            by_cases h2 : y < x
            · rw [if_pos h2, if_pos h2]
              simp
            · rw [if_neg h2, if_neg h1, if_neg h2]
              exact ih ys

theorem compareBytes_lt_trans : ∀ a b c : List Nat, compareBytes a b = .lt →
    compareBytes b c = .lt → compareBytes a c = .lt := by
  intro a
  induction a with
  | nil =>
      intro b c hab hbc
      cases c with
      | nil =>
          cases b with
          | nil => exact absurd hab (by simp [compareBytes])
          | cons y ys => exact absurd hbc (by simp [compareBytes])
      | cons z zs => simp [compareBytes]
  | cons x xs ih =>
      intro b c hab hbc
      cases b with
      | nil => exact absurd hab (by simp [compareBytes])
      | cons y ys =>
          cases c with
          | nil => exact absurd hbc (by simp [compareBytes])
          | cons z zs =>
              unfold compareBytes at hab hbc ⊢
              by_cases h1 : x < y
              · have hyz : y < z ∨ (y = z) := by
                  by_cases h2 : y < z
                  · exact Or.inl h2
                  · rw [if_neg h2] at hbc
                    by_cases h3 : z < y
                    · rw [if_pos h3] at hbc
                      exact absurd hbc (by simp)
                    · exact Or.inr (by omega)
                rcases hyz with h2 | h2 <;> rw [if_pos (by omega)]
              · rw [if_neg h1] at hab
                by_cases h2 : y < x
                · rw [if_pos h2] at hab
                  exact absurd hab (by simp)
                · rw [if_neg h2] at hab
                  have hxy : x = y := by omega
                  subst hxy
                  by_cases h3 : x < z
                  · rw [if_pos h3]
                  · rw [if_neg h3] at hbc ⊢
                    by_cases h4 : z < x
                    · rw [if_pos h4] at hbc
                      exact absurd hbc (by simp)
                    · rw [if_neg h4] at hbc ⊢
                      exact ih ys zs hab hbc

/-! ### MemTable / BTreeMap lemmas -/

/-- Keys strictly ascending — the `BTreeMap` invariant. -/
def SortedKeys (es : List (List Nat × KVEntry)) : Prop :=
  es.Pairwise (fun p q => compareBytes p.1 q.1 = .lt)

/-- Every entry records its own key — maintained by all writers. -/
def Consistent (es : List (List Nat × KVEntry)) : Prop :=
  ∀ p ∈ es, (p.2).key = p.1

instance (es : List (List Nat × KVEntry)) : Decidable (SortedKeys es) := by
  unfold SortedKeys
  infer_instance

instance (es : List (List Nat × KVEntry)) : Decidable (Consistent es) := by
  unfold Consistent
  infer_instance

theorem btreeGet_insert_self (k : List Nat) (v : KVEntry) :
    ∀ es : List (List Nat × KVEntry), btreeGet k (btreeInsert k v es).2 = some v := by
  intro es
  induction es with
  | nil => simp [btreeInsert, btreeGet, compareBytes_self]
  | cons p rest ih =>
      unfold btreeInsert
      match hc : compareBytes k p.1 with
      | .lt => simp [btreeGet, compareBytes_self]
      | .eq => simp [btreeGet, compareBytes_self]
      | .gt =>
          simp only
          match hi : btreeInsert k v rest with
          | (old, rest') =>
            unfold btreeGet
            rw [hc]
            simp only
            rw [hi] at ih
            exact ih

theorem btreeInsert_mem (k : List Nat) (v : KVEntry) :
    ∀ es : List (List Nat × KVEntry), (k, v) ∈ (btreeInsert k v es).2 := by
  intro es
  induction es with
  | nil => simp [btreeInsert]
  | cons p rest ih =>
      unfold btreeInsert
      match hc : compareBytes k p.1 with
      | .lt => simp
      | .eq => simp
      | .gt =>
          simp only
          match hi : btreeInsert k v rest with
          | (old, rest') =>
            rw [hi] at ih
            simp [ih]

theorem btreeInsert_mem_orig (k : List Nat) (v : KVEntry) :
    ∀ es : List (List Nat × KVEntry), ∀ q ∈ (btreeInsert k v es).2, q = (k, v) ∨ q ∈ es := by
  intro es
  induction es with
  | nil =>
      intro q hq
      simp [btreeInsert] at hq
      exact Or.inl hq
  | cons p rest ih =>
      intro q hq
      unfold btreeInsert at hq
      revert hq
      match hc : compareBytes k p.1 with
      | .lt =>
          intro hq
          simp only [List.mem_cons] at hq
          rcases hq with h | h | h
          · exact Or.inl h
          · exact Or.inr (by simp [h])
          · exact Or.inr (List.mem_cons_of_mem _ h)
      | .eq =>
          intro hq
          simp only [List.mem_cons] at hq
          rcases hq with h | h
          · exact Or.inl h
          · exact Or.inr (List.mem_cons_of_mem _ h)
      | .gt =>
          simp only
          match hi : btreeInsert k v rest with
          | (old, rest') =>
            intro hq
            simp only [List.mem_cons] at hq
            rcases hq with h | h
            · exact Or.inr (by simp [h])
            · rw [hi] at ih
              rcases ih q h with h2 | h2
              · exact Or.inl h2
              · exact Or.inr (List.mem_cons_of_mem _ h2)

theorem btreeInsert_sorted (k : List Nat) (v : KVEntry) :
    ∀ es : List (List Nat × KVEntry), SortedKeys es → SortedKeys (btreeInsert k v es).2 := by
  intro es
  induction es with
  | nil =>
      intro _
      simp [btreeInsert, SortedKeys]
  | cons p rest ih =>
      intro hs
      have hs' := hs
      unfold SortedKeys at hs'
      rw [List.pairwise_cons] at hs'
      obtain ⟨hhead, htail⟩ := hs'
      unfold btreeInsert
      match hc : compareBytes k p.1 with
      | .lt =>
          unfold SortedKeys
          simp only [List.pairwise_cons]
          refine ⟨?_, hhead, htail⟩
          intro q hq
          rcases List.mem_cons.mp hq with h | h
          · rw [h]
            exact hc
          · exact compareBytes_lt_trans _ _ _ hc (hhead q h)
      | .eq =>
          unfold SortedKeys
          simp only [List.pairwise_cons]
          refine ⟨?_, htail⟩
          intro q hq
          have := hhead q hq
          rw [← (compareBytes_eq_iff k p.1).mp hc] at this
          exact this
      | .gt =>
          simp only
          match hi : btreeInsert k v rest with
          | (old, rest') =>
            unfold SortedKeys
            simp only [List.pairwise_cons]
            constructor
            · intro q hq
              have := btreeInsert_mem_orig k v rest q (by rw [hi]; exact hq)
              rcases this with h | h
              · rw [h]
                exact (compareBytes_lt_gt p.1 k).mpr hc
              · exact hhead q h
            · have := ih htail
              rw [hi] at this
              exact this

theorem btreeInsert_consistent (k : List Nat) (v : KVEntry) (hv : v.key = k) :
    ∀ es : List (List Nat × KVEntry), Consistent es → Consistent (btreeInsert k v es).2 := by
  intro es hcons q hq
  rcases btreeInsert_mem_orig k v es q hq with h | h
  · rw [h]
    exact hv
  · exact hcons q h

theorem btreeInsert_ne_nil (k : List Nat) (v : KVEntry) :
    ∀ es : List (List Nat × KVEntry), (btreeInsert k v es).2 ≠ [] := by
  intro es
  cases es with
  | nil => simp [btreeInsert]
  | cons p rest =>
      unfold btreeInsert
      match hc : compareBytes k p.1 with
      | .lt => simp
      | .eq => simp
      | .gt =>
          simp only
          match hi : btreeInsert k v rest with
          | (old, rest') => simp

/-- `MemTable::put` then `MemTable::get` of the same key returns the
just-written record. -/
theorem memTable_put_get (m : MemTable) (key value : List Nat) (et : EntryType) (ts : Nat) :
    (m.put key value et ts).get key =
      some { key := key, value := value, timestamp := ts, entry_type := et,
             deleted := et == .Delete } := by
  simp only [MemTable.put, MemTable.get]
  rcases hi : btreeInsert key ⟨key, value, ts, et, et == .Delete⟩ m.entries with ⟨old, entries'⟩
  have h2 : (btreeInsert key ⟨key, value, ts, et, et == .Delete⟩ m.entries).2 = entries' := by
    rw [hi]
  cases old <;> dsimp only <;> rw [← h2] <;> exact btreeGet_insert_self key _ m.entries

/-! ### Properties of `SSTable::create`'s frame-writing loop -/

theorem buildFrames_mem_origin :
    ∀ (es : List (List Nat × KVEntry)) (o : Nat), ∀ ie ∈ (buildFrames es o).2,
      ∃ p, p ∈ es ∧ (p.2).deleted = false ∧ ie.key = (p.2).key := by
  intro es
  induction es with
  | nil =>
      intro o ie hie
      simp [buildFrames] at hie
  | cons p rest ih =>
      intro o ie hie
      unfold buildFrames at hie
      by_cases hd : (p.2).deleted
      · rw [if_pos hd] at hie
        obtain ⟨q, hq1, hq2, hq3⟩ := ih o ie hie
        exact ⟨q, List.mem_cons_of_mem _ hq1, hq2, hq3⟩
      · rw [if_neg hd] at hie
        rcases List.mem_cons.mp hie with h | h
        · refine ⟨p, List.mem_cons_self _ _, by simpa using hd, ?_⟩
          rw [h]
        · obtain ⟨q, hq1, hq2, hq3⟩ := ih _ ie h
          exact ⟨q, List.mem_cons_of_mem _ hq1, hq2, hq3⟩

theorem buildFrames_index_sorted :
    ∀ (es : List (List Nat × KVEntry)) (o : Nat), SortedKeys es → Consistent es →
      (buildFrames es o).2.Pairwise (fun a b => compareBytes a.key b.key = .lt) := by
  intro es
  induction es with
  | nil =>
      intro o _ _
      simp [buildFrames]
  | cons p rest ih =>
      intro o hs hc
      unfold SortedKeys at hs
      rw [List.pairwise_cons] at hs
      obtain ⟨hhead, htail⟩ := hs
      have hctail : Consistent rest := fun q hq => hc q (List.mem_cons_of_mem _ hq)
      unfold buildFrames
      by_cases hd : (p.2).deleted
      · rw [if_pos hd]
        exact ih o htail hctail
      · rw [if_neg hd]
        rw [List.pairwise_cons]
        constructor
        · intro ie hie
          obtain ⟨q, hq1, hq2, hq3⟩ := buildFrames_mem_origin rest _ ie hie
          show compareBytes (p.2).key ie.key = .lt
          rw [hq3, hc p (List.mem_cons_self _ _), hc q (List.mem_cons_of_mem _ hq1)]
          exact hhead q hq1
        · exact ih _ htail hctail

theorem buildFrames_lookup :
    ∀ (es : List (List Nat × KVEntry)) (o : Nat) (k : List Nat) (e : KVEntry),
      (k, e) ∈ es → e.deleted = false →
      ∃ ie, ie ∈ (buildFrames es o).2 ∧ ie.key = e.key ∧ o ≤ ie.position ∧
        ie.size = (frameOf e).length ∧
        ie.position - o + ie.size ≤ (buildFrames es o).1.length ∧
        (((buildFrames es o).1.drop (ie.position - o)).take ie.size) = frameOf e := by
  intro es
  induction es with
  | nil =>
      intro o k e hmem
      exact absurd hmem (List.not_mem_nil _)
  | cons p rest ih =>
      intro o k e hmem hdel
      unfold buildFrames
      rcases List.mem_cons.mp hmem with h | h
      · have hp2 : p.2 = e := by rw [← h]
        rw [hp2, if_neg (by rw [hdel]; simp)]
        refine ⟨⟨e.key, o, (frameOf e).length, e.timestamp⟩, List.mem_cons_self _ _, rfl,
          le_refl o, rfl, ?_, ?_⟩
        · simp only [Nat.sub_self, List.length_append]
          omega
        · rw [Nat.sub_self, List.drop_zero, List.take_left' rfl]
      · by_cases hd : (p.2).deleted
        · rw [if_pos hd]
          exact ih o k e h hdel
        · rw [if_neg hd]
          obtain ⟨ie, h1, h2, h3, h4, h5, h6⟩ := ih (o + (frameOf p.2).length) k e h hdel
          refine ⟨ie, List.mem_cons_of_mem _ h1, h2, by omega, h4, ?_, ?_⟩
          · simp only [List.length_append]
            omega
          · show List.take ie.size
              (List.drop (ie.position - o)
                (frameOf p.2 ++ (buildFrames rest (o + (frameOf p.2).length)).1)) = frameOf e
            rw [drop_chunk
              (show (frameOf p.2).length + (ie.position - (o + (frameOf p.2).length)) =
                ie.position - o by omega)]
            exact h6

/-! ### Totality of the Bloom-filter build -/

theorem bloomNew_length (n : Nat) :
    (bloomNew n).bit_array.length = (bloomNew n).bit_array_size := by
  simp [bloomNew]

theorem bloomNew_size_pos {n : Nat} (hn : 1 ≤ n) : (bloomNew n).bit_array_size ≠ 0 := by
  show (optimal_bit_size n + 7) / 8 ≠ 0
  have h1 : optimal_bit_size 1 ≤ optimal_bit_size n := by
    unfold optimal_bit_size
    apply Nat.div_le_div_right
    have : LNP_NUM * 8 ≤ n * LNP_NUM * 8 := by
      have := Nat.mul_le_mul_right (LNP_NUM * 8) hn
      simpa [Nat.one_mul, Nat.mul_assoc] using this
    simpa [Nat.one_mul] using this
  have h2 : optimal_bit_size 1 = 9 := by decide
  omega

theorem addAux_total (key : List Nat) {s : Nat} (hs : s ≠ 0) :
    ∀ (f i : Nat) (a : List Nat), s ≤ 8 * a.length →
      ∃ r, addAux key s f i a = some r := by
  intro f
  induction f with
  | zero =>
      intro i a _
      exact ⟨a, rfl⟩
  | succ f ih =>
      intro i a hl
      unfold addAux
      rw [if_neg hs]
      have hp : (bloomHash key i % s) / 8 < a.length := by
        have := Nat.mod_lt (bloomHash key i) (show 0 < s by omega)
        omega
      rw [if_pos hp]
      apply ih
      rw [setBit_length]
      exact hl

theorem add_total {b : BloomFilter} (k : List Nat) (hs : b.bit_array_size ≠ 0)
    (hl : b.bit_array.length = b.bit_array_size) : ∃ b', b.add k = some b' := by
  obtain ⟨r, hr⟩ := addAux_total k (s := b.bit_array_size * 8) (by omega)
    b.num_hashes 0 b.bit_array (by omega)
  exact ⟨{ b with bit_array := r }, by unfold BloomFilter.add; rw [hr]⟩

theorem foldAdds_total :
    ∀ (ks : List (List Nat)) (b : BloomFilter), b.bit_array_size ≠ 0 →
      b.bit_array.length = b.bit_array_size → ∃ b', foldAdds b ks = some b' := by
  intro ks
  induction ks with
  | nil =>
      intro b _ _
      exact ⟨b, rfl⟩
  | cons k ks ih =>
      intro b hs hl
      obtain ⟨b₁, hb₁⟩ := add_total k hs hl
      obtain ⟨s1, s2, s3⟩ := add_fields hb₁
      obtain ⟨b', hb'⟩ := ih b₁ (by omega) (by omega)
      refine ⟨b', ?_⟩
      unfold foldAdds at hb' ⊢
      rw [List.foldl_cons]
      have h1 : (some b).bind (fun f : BloomFilter => f.add k) = some b₁ := by
        show b.add k = some b₁
        exact hb₁
      rw [h1]
      exact hb'

/-- `SSTable::create` never actually panics: the Bloom build succeeds. -/
theorem create_some (lvl : Nat) (es : List (List Nat × KVEntry)) :
    ∃ t b, SSTable.create lvl es = some t ∧ t.data = (buildFrames es 0).1 ∧
      t.index = (buildFrames es 0).2 ∧ t.bloom_filter = some b ∧
      foldAdds (bloomNew (buildFrames es 0).2.length)
        ((buildFrames es 0).2.map (fun ie => ie.key)) = some b := by
  have hb : ∃ b, foldAdds (bloomNew (buildFrames es 0).2.length)
      ((buildFrames es 0).2.map (fun ie => ie.key)) = some b := by
    match hidx : (buildFrames es 0).2 with
    | [] => exact ⟨bloomNew 0, rfl⟩
    | ie :: rest =>
        exact foldAdds_total ((ie :: rest).map (fun i => i.key))
          (bloomNew (ie :: rest).length) (bloomNew_size_pos (by simp)) (bloomNew_length _)
  obtain ⟨b, hb⟩ := hb
  refine ⟨⟨lvl, (buildFrames es 0).1, (buildFrames es 0).2, some b⟩, b, ?_, rfl, rfl, rfl, hb⟩
  unfold SSTable.create
  rw [hb]

/-! ### Correctness of `binary_search_by` on a sorted index -/

theorem sortedIdx_getD_lt {idx : List IndexEntry}
    (hs : idx.Pairwise (fun a b => compareBytes a.key b.key = .lt))
    {i j : Nat} (hij : i < j) (hj : j < idx.length) :
    compareBytes (idx.getD i default).key (idx.getD j default).key = .lt := by
  have hi : i < idx.length := by omega
  rw [List.getD_eq_getElem idx default hi, List.getD_eq_getElem idx default hj]
  exact List.pairwise_iff_getElem.mp hs i j hi hj hij

theorem bsearchAux_finds {idx : List IndexEntry} {key : List Nat}
    (hs : idx.Pairwise (fun a b => compareBytes a.key b.key = .lt)) :
    ∀ (f left right j : Nat), right ≤ idx.length → right - left < f →
      left ≤ j → j < right → (idx.getD j default).key = key →
      ∃ i, bsearchAux idx key f left right = some i ∧ i < idx.length ∧
        (idx.getD i default).key = key := by
  intro f
  induction f with
  | zero =>
      intro left right j _ hfuel hlj hjr _
      omega
  | succ f ih =>
      intro left right j hri hfuel hlj hjr hkey
      have hlr : left < right := by omega
      unfold bsearchAux
      rw [if_pos hlr]
      have hmidr : left + (right - left) / 2 < right := by omega
      match hc : compareBytes ((idx.getD (left + (right - left) / 2) default).key) key with
      | .eq =>
          refine ⟨left + (right - left) / 2, rfl, by omega, ?_⟩
          exact (compareBytes_eq_iff _ _).mp hc
      | .lt =>
          have hjmid : left + (right - left) / 2 < j := by
            by_contra hle
            rcases Nat.lt_or_ge j (left + (right - left) / 2) with h | h
            · have := sortedIdx_getD_lt hs h (by omega)
              rw [hkey] at this
              rw [(compareBytes_lt_gt _ _).mp this] at hc
              exact Ordering.noConfusion hc
            · have : j = left + (right - left) / 2 := by omega
              rw [this] at hkey
              rw [(compareBytes_eq_iff _ _).mpr hkey] at hc
              exact Ordering.noConfusion hc
          exact ih (left + (right - left) / 2 + 1) right j hri (by omega) (by omega) hjr hkey
      | .gt =>
          have hjmid : j < left + (right - left) / 2 := by
            by_contra hle
            rcases Nat.lt_or_ge (left + (right - left) / 2) j with h | h
            · have := sortedIdx_getD_lt hs h (by omega)
              rw [hkey] at this
              rw [this] at hc
              exact Ordering.noConfusion hc
            · have : j = left + (right - left) / 2 := by omega
              rw [this] at hkey
              rw [(compareBytes_eq_iff _ _).mpr hkey] at hc
              exact Ordering.noConfusion hc
          exact ih left (left + (right - left) / 2) j (by omega) (by omega) hlj hjmid hkey

theorem bsearch_finds {idx : List IndexEntry} {key : List Nat}
    (hs : idx.Pairwise (fun a b => compareBytes a.key b.key = .lt))
    {j : Nat} (hj : j < idx.length) (hkey : (idx.getD j default).key = key) :
    ∃ i, bsearch idx key = some i ∧ i < idx.length ∧ (idx.getD i default).key = key := by
  exact bsearchAux_finds hs (idx.length + 1) 0 idx.length j (le_refl _) (by omega)
    (Nat.zero_le _) hj hkey

theorem sorted_key_unique {idx : List IndexEntry}
    (hs : idx.Pairwise (fun a b => compareBytes a.key b.key = .lt))
    {i j : Nat} (hi : i < idx.length) (hj : j < idx.length)
    (hkey : (idx.getD i default).key = (idx.getD j default).key) : i = j := by
  by_contra hne
  rcases Nat.lt_or_ge i j with h | h
  · have := sortedIdx_getD_lt hs h hj
    rw [hkey, compareBytes_self] at this
    exact Ordering.noConfusion this
  · have hji : j < i := by omega
    have := sortedIdx_getD_lt hs hji hi
    rw [hkey, compareBytes_self] at this
    exact Ordering.noConfusion this

theorem sorted_mem_getD {idx : List IndexEntry}
    (hs : idx.Pairwise (fun a b => compareBytes a.key b.key = .lt))
    {ie : IndexEntry} (hmem : ie ∈ idx) {i : Nat} (hi : i < idx.length)
    (hkey : (idx.getD i default).key = ie.key) : idx.getD i default = ie := by
  obtain ⟨j, hj, hje⟩ := List.getElem_of_mem hmem
  have hjD : idx.getD j default = ie := by
    rw [List.getD_eq_getElem idx default hj, hje]
  have : i = j := sorted_key_unique hs hi hj (by rw [hkey, hjD])
  rw [this, hjD]

/-! ### `SSTable::get` finds what `SSTable::create` wrote -/

/-- A table produced by `SSTable::create` from a sorted, self-consistent
buffer returns every live entry of that buffer (assuming the entry is
structurally representable: lengths below `2^64`, timestamp below `2^64`). -/
theorem sst_create_get (lvl : Nat) (es : List (List Nat × KVEntry)) (t : SSTable)
    (hsorted : SortedKeys es) (hcons : Consistent es)
    (ht : SSTable.create lvl es = some t)
    (k : List Nat) (e : KVEntry) (hmem : (k, e) ∈ es) (hdel : e.deleted = false)
    (hkb : ByteOk e.key) (hvb : ByteOk e.value)
    (hk : e.key.length < 2 ^ 64) (hv : e.value.length < 2 ^ 64)
    (hts : e.timestamp < 2 ^ 64) :
    t.get e.key = some (some
      (⟨e.key, e.value, e.timestamp, e.entry_type, e.entry_type == .Delete⟩ : KVEntry)) := by
  obtain ⟨t', b, ht', hdata, hidx, hbf, hfold⟩ := create_some lvl es
  rw [ht] at ht'
  cases ht'
  obtain ⟨ie, hie_mem, hie_key, _, hie_size, hie_bound, hie_frame⟩ :=
    buildFrames_lookup es 0 k e hmem hdel
  have hidx_sorted : (buildFrames es 0).2.Pairwise
      (fun a b => compareBytes a.key b.key = .lt) :=
    buildFrames_index_sorted es 0 hsorted hcons
  have hmc : b.might_contain e.key = some true := by
    apply mightContain_after_foldAdds (bloomNew_length _) hfold
    rw [← hie_key]
    exact List.mem_map_of_mem (fun i => i.key) hie_mem
  obtain ⟨j, hj, hje⟩ := List.getElem_of_mem hie_mem
  obtain ⟨i, hsearch, hi, hikey⟩ := bsearch_finds hidx_sorted hj
    (by rw [List.getD_eq_getElem _ default hj, hje, hie_key])
  have hieq : (buildFrames es 0).2.getD i default = ie :=
    sorted_mem_getD hidx_sorted hie_mem hi (by rw [hikey, hie_key])
  have hcrclt : BDBLogEntry.calculate_crc ⟨e.entry_type, e.key, e.value, e.timestamp, 0⟩ <
      256 ^ 4 := by
    have hlt : crc32 ([EntryType.toU8 e.entry_type] ++
        (e.key ++ (e.value ++ leBytes 8 e.timestamp))) < 2 ^ 32 := by
      apply crc32_lt
      intro x hx
      simp only [List.mem_append, List.mem_singleton] at hx
      rcases hx with rfl | hx | hx | hx
      · cases e.entry_type <;> decide
      · have := hkb x hx
        omega
      · have := hvb x hx
        omega
      · have := leBytes_lt 8 e.timestamp x hx
        omega
    have h4 : (256 : Nat) ^ 4 = 2 ^ 32 := by norm_num
    rw [h4]
    exact hlt
  have hts8 : e.timestamp < 256 ^ 8 := by
    have h8 : (256 : Nat) ^ 8 = 2 ^ 64 := by norm_num
    omega
  have hparse : BDBLogEntry.readBytes
      (((buildFrames es 0).1.drop ie.position).take ie.size) =
      .ok ({ entry_type := e.entry_type, key := e.key, value := e.value,
             timestamp := e.timestamp, entry_crc :=
               BDBLogEntry.calculate_crc ⟨e.entry_type, e.key, e.value, e.timestamp, 0⟩ },
           []) := by
    have h0 : ie.position - 0 = ie.position := by omega
    rw [h0] at hie_frame
    rw [hie_frame]
    unfold frameOf BDBLogEntry.writeBytes
    have := logEntry_read_append ⟨e.entry_type, e.key, e.value, e.timestamp, 0⟩
      (BDBLogEntry.calculate_crc ⟨e.entry_type, e.key, e.value, e.timestamp, 0⟩) []
      hk hv hts8 hcrclt
    simpa using this
  unfold SSTable.get
  rw [hbf]
  dsimp only
  rw [hmc]
  dsimp only
  rw [hidx, hsearch]
  dsimp only
  rw [hieq, hdata]
  rw [if_neg (by omega)]
  rw [hparse]

/-! ### LSMTree put/flush/get lemmas -/

theorem ne_nil_not_isEmpty {α : Type} {xs : List α} (h : xs ≠ []) :
    ¬ xs.isEmpty = true := by
  cases xs with
  | nil => exact absurd rfl h
  | cons a as =>
      intro hh
      simp [List.isEmpty] at hh

theorem memTable_put_entries (m : MemTable) (key value : List Nat) (et : EntryType)
    (ts : Nat) :
    (m.put key value et ts).entries =
      (btreeInsert key ⟨key, value, ts, et, et == .Delete⟩ m.entries).2 := by
  simp only [MemTable.put]
  rcases hi : btreeInsert key ⟨key, value, ts, et, et == .Delete⟩ m.entries with ⟨old, e'⟩
  cases old <;> rfl

theorem memTable_put_clear (m : MemTable) (key value : List Nat) (et : EntryType)
    (ts : Nat) : (m.put key value et ts).clear = m.clear := by
  simp only [MemTable.put, MemTable.clear]
  rcases hi : btreeInsert key ⟨key, value, ts, et, et == .Delete⟩ m.entries with ⟨old, e'⟩
  cases old <;> rfl

theorem flush_empty {l : LSMTree} (h : l.memtable.entries = []) : l.flush = some l := by
  unfold LSMTree.flush
  rw [if_pos (by rw [h]; rfl)]

theorem flush_total (l : LSMTree) : ∃ l', l.flush = some l' := by
  by_cases h : l.memtable.entries.isEmpty = true
  · exact ⟨l, by unfold LSMTree.flush; rw [if_pos h]⟩
  · obtain ⟨t, b, hc, _, _, _, _⟩ := create_some 0 l.memtable.entries
    refine ⟨{ l with
      memtable := l.memtable.clear
      levels := l.levels.set 0 ((l.levels.getD 0 []) ++ [t]) }, ?_⟩
    unfold LSMTree.flush
    rw [if_neg h, hc]

theorem put_total (l : LSMTree) (K V : List Nat) (ts : Nat) :
    ∃ l', l.put K V ts = some l' := by
  simp only [LSMTree.put]
  by_cases h : (l.memtable.put K V .Insert ts).should_flush = true
  · rw [if_pos h]
    exact flush_total _
  · rw [if_neg h]
    exact ⟨_, rfl⟩

/-- Flushing a buffer that holds a live entry produces a level-0 SST from
which `get` recovers that entry. -/
theorem lsm_flush_get (l : LSMTree) (k : List Nat) (e : KVEntry)
    (hsorted : SortedKeys l.memtable.entries) (hcons : Consistent l.memtable.entries)
    (lv0 : List SSTable) (rest : List (List SSTable)) (hlev : l.levels = lv0 :: rest)
    (hmem : (k, e) ∈ l.memtable.entries) (hdel : e.deleted = false)
    (hkb : ByteOk e.key) (hvb : ByteOk e.value)
    (hk : e.key.length < 2 ^ 64) (hv : e.value.length < 2 ^ 64)
    (hts : e.timestamp < 2 ^ 64) :
    ∃ sst, l.flush = some { l with
        memtable := l.memtable.clear
        levels := (lv0 ++ [sst]) :: rest } ∧
      ({ l with
        memtable := l.memtable.clear
        levels := (lv0 ++ [sst]) :: rest } : LSMTree).get e.key =
        some (some
          (⟨e.key, e.value, e.timestamp, e.entry_type, e.entry_type == .Delete⟩ :
            KVEntry)) := by
  obtain ⟨t, b, hcreate, hdata, hidx, hbf, hfold⟩ := create_some 0 l.memtable.entries
  have hne : l.memtable.entries ≠ [] := by
    intro h
    rw [h] at hmem
    exact absurd hmem (List.not_mem_nil _)
  have hget := sst_create_get 0 l.memtable.entries t hsorted hcons hcreate k e hmem hdel
    hkb hvb hk hv hts
  refine ⟨t, ?_, ?_⟩
  · unfold LSMTree.flush
    rw [if_neg (ne_nil_not_isEmpty hne), hcreate, hlev]
    simp only [List.getD_cons_zero, List.set_cons_zero]
  · unfold LSMTree.get
    have h1 : ({ l with
        memtable := l.memtable.clear
        levels := (lv0 ++ [t]) :: rest } : LSMTree).memtable.get e.key = none := rfl
    rw [h1]
    dsimp only
    show levelsGet ((lv0 ++ [t]) :: rest) e.key = _
    unfold levelsGet
    rw [List.reverse_append]
    show (match levelGet (t :: lv0.reverse) e.key with
      | none => none
      | some (some e) => some (some e)
      | some none => levelsGet rest e.key) = _
    unfold levelGet
    rw [hget]

set_option maxRecDepth 10000 in
/-- **C1**: for every key `K` and value `V`, `put(K,V)` followed by
`get(K)` on the same tree with no intervening write returns an entry whose
value is `V`, whether or not the put triggered a flush of the buffer into
a level-0 SST. -/
theorem lsm_put_get (l : LSMTree) (key value : List Nat) (ts : Nat)
    (hsorted : SortedKeys l.memtable.entries) (hcons : Consistent l.memtable.entries)
    (lv0 : List SSTable) (rest : List (List SSTable)) (hlev : l.levels = lv0 :: rest)
    (hkb : ByteOk key) (hvb : ByteOk value)
    (hk : key.length < 2 ^ 64) (hv : value.length < 2 ^ 64) (hts : ts < 2 ^ 64) :
    ∃ l', l.put key value ts = some l' ∧
      ∃ e, l'.get key = some (some e) ∧ e.value = value := by
  simp only [LSMTree.put]
  by_cases hsf : (l.memtable.put key value .Insert ts).should_flush = true
  · rw [if_pos hsf]
    have hentries : (l.memtable.put key value .Insert ts).entries =
        (btreeInsert key ⟨key, value, ts, .Insert, (EntryType.Insert == EntryType.Delete)⟩
          l.memtable.entries).2 :=
      memTable_put_entries l.memtable key value .Insert ts
    obtain ⟨sst, hfl, hget⟩ := lsm_flush_get
      { l with memtable := l.memtable.put key value .Insert ts } key
      ⟨key, value, ts, .Insert, (EntryType.Insert == EntryType.Delete)⟩
      (by
        show SortedKeys (l.memtable.put key value .Insert ts).entries
        rw [hentries]
        exact btreeInsert_sorted _ _ _ hsorted)
      (by
        show Consistent (l.memtable.put key value .Insert ts).entries
        rw [hentries]
        exact btreeInsert_consistent key
          ⟨key, value, ts, .Insert, (EntryType.Insert == EntryType.Delete)⟩ rfl _ hcons)
      lv0 rest hlev
      (by
        show _ ∈ (l.memtable.put key value .Insert ts).entries
        rw [hentries]
        exact btreeInsert_mem _ _ _)
      rfl hkb hvb hk hv hts
    exact ⟨_, hfl, ⟨_, hget, rfl⟩⟩
  · rw [if_neg hsf]
    refine ⟨_, rfl, ?_⟩
    refine ⟨⟨key, value, ts, .Insert, (EntryType.Insert == EntryType.Delete)⟩, ?_, rfl⟩
    unfold LSMTree.get
    have h1 : ({ l with memtable := l.memtable.put key value .Insert ts } :
        LSMTree).memtable.get key =
        some ⟨key, value, ts, .Insert, (EntryType.Insert == EntryType.Delete)⟩ :=
      memTable_put_get l.memtable key value .Insert ts
    rw [h1]

/-- Witness for C1 at a concrete tree and key/value pair. -/
theorem lsm_put_get_witness :
    ∃ l', (LSMTree.new 100 .History).put [1] [2] 5 = some l' ∧
      ∃ e, l'.get [1] = some (some e) ∧ e.value = [2] :=
  lsm_put_get (LSMTree.new 100 .History) [1] [2] 5 (by decide) (by decide)
    [] (List.replicate 9 []) rfl (by decide) (by decide) (by decide) (by decide) (by decide)

/-- Whatever the auto-flush decision inside `put`, `put` followed by
`flush` leaves a cleared buffer and one new SST appended to level 0. -/
theorem put_then_flush {l l1 l2 : LSMTree} (K V : List Nat) (ts : Nat)
    (h1 : l.put K V ts = some l1) (h2 : l1.flush = some l2) :
    ∃ sst, l2 = { l with
      memtable := l.memtable.clear
      levels := l.levels.set 0 ((l.levels.getD 0 []) ++ [sst]) } := by
  have hne : (l.memtable.put K V .Insert ts).entries ≠ [] := by
    rw [memTable_put_entries]
    exact btreeInsert_ne_nil _ _ _
  simp only [LSMTree.put] at h1
  obtain ⟨t, b, hcreate, _, _, _, _⟩ :=
    create_some 0 (l.memtable.put K V .Insert ts).entries
  by_cases hsf : (l.memtable.put K V .Insert ts).should_flush = true
  · rw [if_pos hsf] at h1
    unfold LSMTree.flush at h1
    rw [if_neg (ne_nil_not_isEmpty hne)] at h1
    rw [show ({ l with memtable := l.memtable.put K V .Insert ts } :
        LSMTree).memtable.entries = (l.memtable.put K V .Insert ts).entries from rfl,
      hcreate] at h1
    have h1' := Option.some_inj.mp h1
    have hl1mem : l1.memtable.entries = [] := by
      rw [← h1']
      rfl
    rw [flush_empty hl1mem] at h2
    have h2' := Option.some_inj.mp h2
    refine ⟨t, ?_⟩
    rw [← h2', ← h1', memTable_put_clear]
  · rw [if_neg hsf] at h1
    have h1' := Option.some_inj.mp h1
    unfold LSMTree.flush at h2
    rw [← h1'] at h2
    rw [show ({ l with memtable := l.memtable.put K V .Insert ts } :
        LSMTree).memtable.entries = (l.memtable.put K V .Insert ts).entries from rfl] at h2
    rw [if_neg (ne_nil_not_isEmpty hne), hcreate] at h2
    have h2' := Option.some_inj.mp h2
    refine ⟨t, ?_⟩
    rw [← h2', memTable_put_clear]

set_option maxRecDepth 10000 in
/-- **C5**: writing `V1` under `K`, flushing, then writing `V2` under `K`
yields `V2` from `get` both before any further flush and after a second
flush — the level-0 SST list is probed newest-first, so the newer SST wins. -/
theorem lsm_read_priority (l : LSMTree) (K V1 V2 : List Nat) (ts1 ts2 : Nat)
    (lv0 : List SSTable) (rest : List (List SSTable)) (hlev : l.levels = lv0 :: rest)
    (hkb : ByteOk K) (hvb : ByteOk V2)
    (hk : K.length < 2 ^ 64) (hv : V2.length < 2 ^ 64) (hts : ts2 < 2 ^ 64) :
    ∃ l1 l2 l3 l4, l.put K V1 ts1 = some l1 ∧ l1.flush = some l2 ∧
      l2.put K V2 ts2 = some l3 ∧ l3.flush = some l4 ∧
      (∃ e, l3.get K = some (some e) ∧ e.value = V2) ∧
      (∃ e, l4.get K = some (some e) ∧ e.value = V2) := by
  obtain ⟨l1, h1⟩ := put_total l K V1 ts1
  obtain ⟨l2, h2⟩ := flush_total l1
  obtain ⟨sst1, hl2⟩ := put_then_flush K V1 ts1 h1 h2
  have hl2mem : l2.memtable.entries = [] := by
    rw [hl2]
    rfl
  have hl2lev : l2.levels = (lv0 ++ [sst1]) :: rest := by
    rw [hl2]
    show l.levels.set 0 ((l.levels.getD 0 []) ++ [sst1]) = _
    rw [hlev]
    simp only [List.getD_cons_zero, List.set_cons_zero]
  have hentries2 : (l2.memtable.put K V2 .Insert ts2).entries =
      (btreeInsert K ⟨K, V2, ts2, .Insert, (EntryType.Insert == EntryType.Delete)⟩
        l2.memtable.entries).2 :=
    memTable_put_entries l2.memtable K V2 .Insert ts2
  have hsorted2 : SortedKeys (l2.memtable.put K V2 .Insert ts2).entries := by
    rw [hentries2]
    apply btreeInsert_sorted
    rw [hl2mem]
    simp [SortedKeys]
  have hcons2 : Consistent (l2.memtable.put K V2 .Insert ts2).entries := by
    rw [hentries2]
    apply btreeInsert_consistent K
      ⟨K, V2, ts2, .Insert, (EntryType.Insert == EntryType.Delete)⟩ rfl
    rw [hl2mem]
    intro p hp
    exact absurd hp (List.not_mem_nil p)
  have hmem2 : (K, (⟨K, V2, ts2, .Insert, (EntryType.Insert == EntryType.Delete)⟩ :
      KVEntry)) ∈ (l2.memtable.put K V2 .Insert ts2).entries := by
    rw [hentries2]
    exact btreeInsert_mem _ _ _
  obtain ⟨sst2, hfl, hget⟩ := lsm_flush_get
    { l2 with memtable := l2.memtable.put K V2 .Insert ts2 } K
    ⟨K, V2, ts2, .Insert, (EntryType.Insert == EntryType.Delete)⟩
    hsorted2 hcons2 (lv0 ++ [sst1]) rest hl2lev hmem2 rfl hkb hvb hk hv hts
  by_cases hsf : (l2.memtable.put K V2 .Insert ts2).should_flush = true
  · -- the second write itself triggers a flush: `get` is served by the new SST
    have hput2 : l2.put K V2 ts2 = some { { l2 with
        memtable := l2.memtable.put K V2 .Insert ts2 } with
        memtable := ({ l2 with memtable := l2.memtable.put K V2 .Insert ts2 } :
          LSMTree).memtable.clear
        levels := ((lv0 ++ [sst1]) ++ [sst2]) :: rest } := by
      simp only [LSMTree.put]
      rw [if_pos hsf]
      exact hfl
    refine ⟨l1, l2, _, _, h1, h2, hput2, flush_empty rfl, ⟨_, hget, rfl⟩,
      ⟨_, hget, rfl⟩⟩
  · -- no auto-flush: `get` is served by the buffer; a second flush then
    -- creates a newer level-0 SST that still yields V2
    have hput2 : l2.put K V2 ts2 =
        some { l2 with memtable := l2.memtable.put K V2 .Insert ts2 } := by
      simp only [LSMTree.put]
      rw [if_neg hsf]
    refine ⟨l1, l2, _, _, h1, h2, hput2, hfl, ?_, ⟨_, hget, rfl⟩⟩
    refine ⟨⟨K, V2, ts2, .Insert, (EntryType.Insert == EntryType.Delete)⟩, ?_, rfl⟩
    unfold LSMTree.get
    have hmg : ({ l2 with memtable := l2.memtable.put K V2 .Insert ts2 } :
        LSMTree).memtable.get K =
        some ⟨K, V2, ts2, .Insert, (EntryType.Insert == EntryType.Delete)⟩ :=
      memTable_put_get l2.memtable K V2 .Insert ts2
    rw [hmg]

/-- Witness for C5 at a concrete tree, key and two values. -/
theorem lsm_read_priority_witness :
    ∃ l1 l2 l3 l4, (LSMTree.new 100 .History).put [1] [2] 5 = some l1 ∧
      l1.flush = some l2 ∧ l2.put [1] [3] 6 = some l3 ∧ l3.flush = some l4 ∧
      (∃ e, l3.get [1] = some (some e) ∧ e.value = [3]) ∧
      (∃ e, l4.get [1] = some (some e) ∧ e.value = [3]) :=
  lsm_read_priority (LSMTree.new 100 .History) [1] [2] [3] 5 6
    [] (List.replicate 9 []) rfl (by decide) (by decide) (by decide) (by decide) (by decide)

/-! ### C2: tombstones are visible in memory but never written to an SST -/

/-- **C2** (amended): after `put(K,V1)`, a flush and a delete-write of `K`,
`get(K)` yields an operation-kind-Delete entry; but `SSTable::create` skips
every tombstone, so each index entry of a created table stems from a
non-deleted buffer entry — the delete is never persisted and cannot
survive a close/reopen cycle. -/
theorem tombstone_visible_not_persisted (l : LSMTree) (K V1 : List Nat) (ts1 ts2 : Nat)
    (lvl : Nat) (es : List (List Nat × KVEntry)) (t : SSTable)
    (ht : SSTable.create lvl es = some t) :
    (∃ l1 l2, l.put K V1 ts1 = some l1 ∧ l1.flush = some l2 ∧
      ∃ e, ({ l2 with memtable := l2.memtable.put K [] .Delete ts2 } : LSMTree).get K =
        some (some e) ∧ e.entry_type = .Delete ∧ e.deleted = true) ∧
    (∀ ie ∈ t.index, ∃ p, p ∈ es ∧ (p.2).deleted = false ∧ ie.key = (p.2).key) := by
  constructor
  · obtain ⟨l1, h1⟩ := put_total l K V1 ts1
    obtain ⟨l2, h2⟩ := flush_total l1
    refine ⟨l1, l2, h1, h2, ?_⟩
    refine ⟨⟨K, [], ts2, .Delete, (EntryType.Delete == EntryType.Delete)⟩, ?_, rfl, rfl⟩
    unfold LSMTree.get
    have hmg : ({ l2 with memtable := l2.memtable.put K [] .Delete ts2 } :
        LSMTree).memtable.get K =
        some ⟨K, [], ts2, .Delete, (EntryType.Delete == EntryType.Delete)⟩ :=
      memTable_put_get l2.memtable K [] .Delete ts2
    rw [hmg]
  · obtain ⟨t', b, ht', _, hidx, _, _⟩ := create_some lvl es
    rw [ht] at ht'
    cases ht'
    rw [hidx]
    exact buildFrames_mem_origin es 0

/-- Witness for C2's amended statement at a concrete tree and a concrete
(empty) buffer. -/
theorem tombstone_visible_not_persisted_witness :
    ((∃ l1 l2, (LSMTree.new 100 .History).put [1] [2] 5 = some l1 ∧ l1.flush = some l2 ∧
      ∃ e, ({ l2 with memtable := l2.memtable.put [1] [] .Delete 6 } : LSMTree).get [1] =
        some (some e) ∧ e.entry_type = .Delete ∧ e.deleted = true) ∧
    (∀ ie ∈ (⟨0, [], [], some (bloomNew 0)⟩ : SSTable).index,
      ∃ p, p ∈ ([] : List (List Nat × KVEntry)) ∧ (p.2).deleted = false ∧
        ie.key = (p.2).key)) :=
  tombstone_visible_not_persisted (LSMTree.new 100 .History) [1] [2] 5 6 0 []
    ⟨0, [], [], some (bloomNew 0)⟩ rfl

/-- The full close/reopen pipeline of the original C2 scenario, ending in
the two possible directory-scan orders.  `put(K,V1)`; flush; delete-write
of `K`; drop-time flush; then the two level-0 files are reopened and `K`
is looked up. -/
def c2Reopen (order : Bool) : Option (Option KVEntry) :=
  ((LSMTree.new 1000 .History).put [1] [2] 5).bind (fun l1 =>
    l1.flush.bind (fun l2 =>
      ({ l2 with memtable := l2.memtable.put [1] [] .Delete 6 } : LSMTree).flush.bind
        (fun l4 =>
          (lsmRecover 1000 .History
            (if order then
              [((l4.levels.getD 0 []).getD 0 default).data,
               ((l4.levels.getD 0 []).getD 1 default).data]
            else
              [((l4.levels.getD 0 []).getD 1 default).data,
               ((l4.levels.getD 0 []).getD 0 default).data])).bind
            (fun T => T.get [1]))))

set_option maxRecDepth 1000000 in
/-- Counterexample to C2 as stated: after the close/reopen cycle the
delete is gone.  In one directory-scan order the lookup panics (the
tombstone-only SST has an empty index, and its Bloom filter's
`might_contain` divides by zero); in the other it returns the old
`Insert`-kind entry with value `V1` — never an operation-kind-Delete
entry. -/
theorem tombstone_lost_on_reopen :
    c2Reopen true = none ∧
      c2Reopen false =
        some (some (⟨[1], [2], 5, .Insert, false⟩ : KVEntry)) := by
  constructor
  · rfl
  · rfl

/-! ### C3: the frame CRC is never verified on read -/

set_option maxRecDepth 1000000 in
/-- **C3** (amended): `BDBLogEntry::read` performs no CRC verification — a
structurally well-formed frame parses successfully whatever its stored
CRC, and `SSTable::open`'s scan continues past CRC-mismatched frames,
stopping only at a structural parse failure (here: two frames with wrong
stored CRCs are both indexed; the trailing garbage byte ends the scan). -/
theorem frame_crc_ignored (e : BDBLogEntry) (c : Nat) (r : List Nat)
    (hk : e.key.length < 2 ^ 64) (hv : e.value.length < 2 ^ 64)
    (hts : e.timestamp < 256 ^ 8) (hc : c < 256 ^ 4) :
    BDBLogEntry.readBytes (frameBytesWith e c ++ r) =
      .ok ({ e with entry_crc := c }, r) ∧
    ((1 ≠ exEntry.calculate_crc ∧ 2 ≠ exEntry.calculate_crc) ∧
      (SSTable.open (frameBytesWith exEntry 1 ++ (frameBytesWith exEntry 2 ++ [7])) 0).map
        (fun t => t.index.length) = some 2) := by
  refine ⟨logEntry_read_append e c r hk hv hts hc, ⟨?_, ?_⟩, ?_⟩
  · decide
  · decide
  · rfl

set_option maxRecDepth 1000000 in
/-- Witness for C3's amended statement: a concrete frame with stored CRC 9
followed by a spare byte. -/
theorem frame_crc_ignored_witness :
    exEntry.key.length < 2 ^ 64 ∧ exEntry.timestamp < 256 ^ 8 ∧
    BDBLogEntry.readBytes (frameBytesWith exEntry 9 ++ [5]) =
      .ok ({ exEntry with entry_crc := 9 }, [5]) :=
  ⟨by decide, by decide,
    (frame_crc_ignored exEntry 9 [5] (by decide) (by decide) (by decide) (by decide)).1⟩

/-! ### C10: the zero-element Bloom filter and empty-index SSTables -/

theorem bloomNew_zero_add (k : List Nat) : (bloomNew 0).add k = none := rfl

theorem bloomNew_zero_mc (k : List Nat) : (bloomNew 0).might_contain k = none := rfl

theorem sst_get_bloomZero (lvl : Nat) (data : List Nat) (idx : List IndexEntry)
    (k : List Nat) : SSTable.get ⟨lvl, data, idx, some (bloomNew 0)⟩ k = none := by
  unfold SSTable.get
  dsimp only
  rw [bloomNew_zero_mc]

theorem buildFrames_all_deleted :
    ∀ (es : List (List Nat × KVEntry)) (o : Nat), (∀ p ∈ es, (p.2).deleted = true) →
      buildFrames es o = ([], []) := by
  intro es
  induction es with
  | nil =>
      intro o _
      rfl
  | cons p rest ih =>
      intro o h
      rcases p with ⟨pk, pe⟩
      unfold buildFrames
      rw [if_pos (h (pk, pe) (List.mem_cons_self _ _))]
      exact ih o (fun q hq => h q (List.mem_cons_of_mem _ hq))

theorem create_all_deleted {lvl : Nat} {es : List (List Nat × KVEntry)} {t : SSTable}
    (hdel : ∀ p ∈ es, (p.2).deleted = true)
    (ht : SSTable.create lvl es = some t) :
    t = ⟨lvl, [], [], some (bloomNew 0)⟩ := by
  unfold SSTable.create at ht
  rw [buildFrames_all_deleted es 0 hdel] at ht
  exact (Option.some_inj.mp ht).symm

theorem scanFrames_error {bytes : List Nat} {s : String}
    (h : BDBLogEntry.readBytes bytes = .error s) : ∀ f o, scanFrames f o bytes = [] := by
  intro f o
  cases f with
  | zero => rfl
  | succ f =>
      unfold scanFrames
      by_cases hz : bytes.length = 0
      · rw [if_pos hz]
      · rw [if_neg hz, h]

theorem open_error {bytes : List Nat} {lvl : Nat} {t : SSTable} {s : String}
    (h : BDBLogEntry.readBytes bytes = .error s)
    (ht : SSTable.open bytes lvl = some t) :
    t = ⟨lvl, bytes, [], some (bloomNew 0)⟩ := by
  unfold SSTable.open at ht
  rw [scanFrames_error h bytes.length 0] at ht
  exact (Option.some_inj.mp ht).symm

/-- **C10**: `BloomFilter::new(0, ·)` yields a zero-length bit array but
one hash function, so `add` and `might_contain` panic with a modulo by
zero; such a filter is exactly what an SSTable with an empty index gets
(a table created from an all-tombstone buffer, or opened from a file whose
first frame fails to parse), and `SSTable::get` on such a table panics
instead of returning absent. -/
theorem bloom_zero_panics :
    ((bloomNew 0).bit_array = [] ∧ (bloomNew 0).bit_array_size = 0 ∧
      (bloomNew 0).num_hashes = 1) ∧
    (∀ k, (bloomNew 0).add k = none ∧ (bloomNew 0).might_contain k = none) ∧
    (∀ lvl es (t : SSTable), (∀ p ∈ es, (p.2).deleted = true) →
      SSTable.create lvl es = some t →
      t.index = [] ∧ t.bloom_filter = some (bloomNew 0) ∧ ∀ k, t.get k = none) ∧
    (∀ bytes lvl (t : SSTable) (s : String), BDBLogEntry.readBytes bytes = .error s →
      SSTable.open bytes lvl = some t →
      t.index = [] ∧ t.bloom_filter = some (bloomNew 0) ∧ ∀ k, t.get k = none) := by
  refine ⟨⟨rfl, rfl, rfl⟩, fun k => ⟨bloomNew_zero_add k, bloomNew_zero_mc k⟩, ?_, ?_⟩
  · intro lvl es t hdel ht
    rw [create_all_deleted hdel ht]
    exact ⟨rfl, rfl, fun k => sst_get_bloomZero lvl [] [] k⟩
  · intro bytes lvl t s h ht
    rw [open_error h ht]
    exact ⟨rfl, rfl, fun k => sst_get_bloomZero lvl bytes [] k⟩

/-- Witness for C10: an all-tombstone buffer and a garbage file, both
yielding tables whose `get` panics. -/
theorem bloom_zero_panics_witness :
    SSTable.create 0 [([1], ⟨[1], [], 6, .Delete, true⟩)] =
      some ⟨0, [], [], some (bloomNew 0)⟩ ∧
    BDBLogEntry.readBytes [7] = .error "eof" ∧
    SSTable.open [7] 0 = some ⟨0, [7], [], some (bloomNew 0)⟩ ∧
    (⟨0, [], [], some (bloomNew 0)⟩ : SSTable).get [1] = none ∧
    (⟨0, [7], [], some (bloomNew 0)⟩ : SSTable).get [1] = none :=
  ⟨by decide, rfl, by decide,
    (bloom_zero_panics.2.2.1 0 [([1], ⟨[1], [], 6, .Delete, true⟩)]
      ⟨0, [], [], some (bloomNew 0)⟩ (by decide) (by decide)).2.2 [1],
    (bloom_zero_panics.2.2.2 [7] 0 ⟨0, [7], [], some (bloomNew 0)⟩ "eof" rfl
      (by decide)).2.2 [1]⟩

end BrowserDB
